import Mathlib

/-!
Verification of the Morse code translator
(`src/apps/morse_code_translator/morse_translator.py`).

Strings are modelled as `List Char`.  Python's `str.upper`, applied
character by character in `_normalize_text`, is modelled by
`Char.toUpper` (basic-latin uppercasing, which covers every character
relevant to the Morse table).  Fallible functions return `Except`,
carrying the offending character (encode) or token (decode) exactly as
the `ValueError` messages of the source do.
-/

namespace Morse

/-- The forward table `MORSE_CODE_TABLE`, in source order, with codes as
lists of dot/dash characters. -/
def MORSE_CODE_TABLE : List (Char × List Char) :=
  [ ('A', ['.', '-']),
    ('B', ['-', '.', '.', '.']),
    ('C', ['-', '.', '-', '.']),
    ('D', ['-', '.', '.']),
    ('E', ['.']),
    ('F', ['.', '.', '-', '.']),
    ('G', ['-', '-', '.']),
    ('H', ['.', '.', '.', '.']),
    ('I', ['.', '.']),
    ('J', ['.', '-', '-', '-']),
    ('K', ['-', '.', '-']),
    ('L', ['.', '-', '.', '.']),
    ('M', ['-', '-']),
    ('N', ['-', '.']),
    ('O', ['-', '-', '-']),
    ('P', ['.', '-', '-', '.']),
    ('Q', ['-', '-', '.', '-']),
    ('R', ['.', '-', '.']),
    ('S', ['.', '.', '.']),
    ('T', ['-']),
    ('U', ['.', '.', '-']),
    ('V', ['.', '.', '.', '-']),
    ('W', ['.', '-', '-']),
    ('X', ['-', '.', '.', '-']),
    ('Y', ['-', '.', '-', '-']),
    ('Z', ['-', '-', '.', '.']),
    ('0', ['-', '-', '-', '-', '-']),
    ('1', ['.', '-', '-', '-', '-']),
    ('2', ['.', '.', '-', '-', '-']),
    ('3', ['.', '.', '.', '-', '-']),
    ('4', ['.', '.', '.', '.', '-']),
    ('5', ['.', '.', '.', '.', '.']),
    ('6', ['-', '.', '.', '.', '.']),
    ('7', ['-', '-', '.', '.', '.']),
    ('8', ['-', '-', '-', '.', '.']),
    ('9', ['-', '-', '-', '-', '.']),
    ('.', ['.', '-', '.', '-', '.', '-']),
    (',', ['-', '-', '.', '.', '-', '-']),
    ('?', ['.', '.', '-', '-', '.', '.']),
    ('\'', ['.', '-', '-', '-', '-', '.']),
    ('!', ['-', '.', '-', '.', '-', '-']),
    ('/', ['-', '.', '.', '-', '.']),
    ('(', ['-', '.', '-', '-', '.']),
    (')', ['-', '.', '-', '-', '.', '-']),
    ('&', ['.', '-', '.', '.', '.']),
    (':', ['-', '-', '-', '.', '.', '.']),
    (';', ['-', '.', '-', '.', '-', '.']),
    ('=', ['-', '.', '.', '.', '-']),
    ('+', ['.', '-', '.', '-', '.']),
    ('-', ['-', '.', '.', '.', '.', '-']),
    ('_', ['.', '.', '-', '-', '.', '-']),
    ('"', ['.', '-', '.', '.', '-', '.']),
    ('$', ['.', '.', '.', '-', '.', '.', '-']),
    ('@', ['.', '-', '-', '.', '-', '.']) ]

/-- `REVERSE_MORSE_CODE_TABLE = {value: key for key, value in MORSE_CODE_TABLE.items()}`.
A Python dict built by insertion keeps the LAST binding for a duplicated
key, so the association list is reversed to make first-match lookup agree
with the dict. -/
def REVERSE_MORSE_CODE_TABLE : List (List Char × Char) :=
  (MORSE_CODE_TABLE.map (fun p => (p.2, p.1))).reverse

def DEFAULT_LETTER_SEPARATOR : List Char := [' ']

def DEFAULT_WORD_SEPARATOR : List Char := [' ', '/', ' ']

/-- `_normalize_text`: spaces pass through, every other character is
uppercased. -/
def normalize_text (text : List Char) : List Char :=
  text.map (fun c => if c = ' ' then c else c.toUpper)

/-- Python's `sep.join(parts)`. -/
def joinSep (sep : List Char) : List (List Char) → List Char
  | [] => []
  | [w] => w
  | w :: ws => w ++ sep ++ joinSep sep ws

/-- `startsWith l p` : the list `p` occurs at the front of `l`. -/
def startsWith : List Char → List Char → Bool
  | _, [] => true
  | [], _ :: _ => false
  | a :: l, b :: p => a = b && startsWith l p

/-- Fuel-driven worker for `splitOnList` (structural, so that concrete
instances reduce in the kernel). -/
def splitGo (sep : List Char) : Nat → List Char → List (List Char)
  | 0, l => [l]
  | _ + 1, [] => [[]]
  | n + 1, c :: rest =>
    if sep ≠ [] ∧ startsWith (c :: rest) sep then
      [] :: splitGo sep n ((c :: rest).drop sep.length)
    else
      match splitGo sep n rest with
      | [] => [[c]]
      | w :: ws => (c :: w) :: ws

/-- Python's `l.split(sep)` for a non-empty separator `sep`: split at each
(leftmost, non-overlapping) occurrence of `sep`, keeping empty pieces. -/
def splitOnList (sep : List Char) (l : List Char) : List (List Char) :=
  splitGo sep l.length l

/-- The whitespace test of Python's `str.strip()`. -/
def pyIsSpace (c : Char) : Bool :=
  c = ' ' || c = '\t' || c = '\n' || c = '\r' || c = '\x0b' || c = '\x0c'

/-- Python's `str.strip()`: drop leading and trailing whitespace. -/
def strip (l : List Char) : List Char :=
  ((l.dropWhile pyIsSpace).reverse.dropWhile pyIsSpace).reverse

/-- The accumulation loop of `encode_to_morse`, over the already
normalised text.  `words` are the finished Morse words, `cur` the codes
of the current word. -/
def encode_go (lsep : List Char) :
    List Char → List (List Char) → List (List Char) → Except Char (List (List Char))
  | [], words, cur =>
    .ok (if cur.isEmpty then words else words ++ [joinSep lsep cur])
  | c :: rest, words, cur =>
    if c = ' ' then
      if cur.isEmpty then encode_go lsep rest words []
      else encode_go lsep rest (words ++ [joinSep lsep cur]) []
    else
      match MORSE_CODE_TABLE.lookup c with
      | some code => encode_go lsep rest words (cur ++ [code])
      | none => .error c

/-- `encode_to_morse(text, letter_sep, word_sep)`.  On success the Morse
words are joined with `word_sep`; an unsupported (normalised) character
is reported as the error value. -/
def encode_to_morse (text : List Char) (letter_sep word_sep : List Char) :
    Except Char (List Char) :=
  match encode_go letter_sep (normalize_text text) [] [] with
  | .ok words => .ok (joinSep word_sep words)
  | .error c => .error c

/-- The inner token loop of `decode_from_morse`: translate each Morse
token through the reverse table, failing on the first unknown token. -/
def decode_letters : List (List Char) → Except (List Char) (List Char)
  | [] => .ok []
  | t :: ts =>
    match REVERSE_MORSE_CODE_TABLE.lookup t with
    | some c => (decode_letters ts).map (fun cs => c :: cs)
    | none => .error t

/-- The outer chunk loop of `decode_from_morse`: strip each chunk, skip
empty ones, split the rest on the letter separator, drop empty tokens and
decode. -/
def decode_words (lsep : List Char) :
    List (List Char) → Except (List Char) (List (List Char))
  | [] => .ok []
  | raw :: rest =>
    if strip raw = [] then decode_words lsep rest
    else
      match decode_letters ((splitOnList lsep (strip raw)).filter (fun t => !t.isEmpty)) with
      | .ok cs => (decode_words lsep rest).map (fun ws => cs :: ws)
      | .error e => .error e

/-- `decode_from_morse(morse, letter_sep, word_sep)`. -/
def decode_from_morse (morse : List Char) (letter_sep word_sep : List Char) :
    Except (List Char) (List Char) :=
  if strip morse = [] then .ok []
  else (decode_words letter_sep (splitOnList word_sep morse)).map (joinSep [' '])

/-- Maximal runs of non-space characters, via a fuel-driven worker:
`wordsOf t` is Python's `t.split()` restricted to the space character,
i.e. the words `encode_to_morse` extracts. -/
def wordsOfGo : Nat → List Char → List (List Char)
  | 0, _ => []
  | _ + 1, [] => []
  | n + 1, c :: t =>
    if c = ' ' then wordsOfGo n t
    else (c :: t.takeWhile (fun d => d ≠ ' ')) :: wordsOfGo n (t.dropWhile (fun d => d ≠ ' '))

def wordsOf (l : List Char) : List (List Char) :=
  wordsOfGo l.length l

/-- The Morse code of a (normalised) character, total via a default. -/
def codeOf (c : Char) : List Char :=
  (MORSE_CODE_TABLE.lookup c).getD []

/-- The Morse word a single plain word encodes to. -/
def encWord (lsep : List Char) (w : List Char) : List Char :=
  joinSep lsep (w.map codeOf)

/-- A character is supported when its normalisation has a table entry. -/
def supportedChar (c : Char) : Prop :=
  c = ' ' ∨ (MORSE_CODE_TABLE.lookup c.toUpper).isSome

instance (c : Char) : Decidable (supportedChar c) := by
  unfold supportedChar; infer_instance

/-- `scan l = true` iff `l` contains two adjacent spaces. -/
def hasDoubleSpace : List Char → Bool
  | a :: b :: t => (a = ' ' && b = ' ') || hasDoubleSpace (b :: t)
  | _ => false

/-- A character of the output alphabet of `encode_to_morse` with the
default separators. -/
def morseOutputChar (c : Char) : Prop :=
  c = '.' ∨ c = '-' ∨ c = ' ' ∨ c = '/'

/-! ### Facts about the tables, checked by evaluation -/

theorem table_reverse_lookup :
    ∀ p ∈ MORSE_CODE_TABLE, REVERSE_MORSE_CODE_TABLE.lookup p.2 = some p.1 := by
  decide

theorem table_injective :
    ∀ p ∈ MORSE_CODE_TABLE, ∀ q ∈ MORSE_CODE_TABLE, p.2 = q.2 → p.1 = q.1 := by
  decide

theorem table_code_ne_nil : ∀ p ∈ MORSE_CODE_TABLE, p.2 ≠ [] := by
  decide

theorem table_code_chars : ∀ p ∈ MORSE_CODE_TABLE, ∀ c ∈ p.2, c = '.' ∨ c = '-' := by
  decide

theorem table_key_toUpper : ∀ p ∈ MORSE_CODE_TABLE, p.1.toUpper = p.1 := by
  decide

theorem rev_table_value_facts :
    ∀ q ∈ REVERSE_MORSE_CODE_TABLE,
      (MORSE_CODE_TABLE.lookup q.2).isSome ∧ q.2.isLower = false ∧ q.2 ≠ ' ' := by
  decide

/-! ### Association-list lookup -/

theorem mem_of_lookup_eq_some {α β : Type} [BEq α] [LawfulBEq α]
    {l : List (α × β)} {a : α} {b : β} (h : l.lookup a = some b) : (a, b) ∈ l := by
  induction l with
  | nil => simp [List.lookup] at h
  | cons p l ih =>
    obtain ⟨k, v⟩ := p
    rw [List.lookup] at h
    by_cases hk : a == k
    · rw [hk] at h
      simp only [Option.some.injEq] at h
      have hak : a = k := eq_of_beq hk
      subst hak
      subst h
      exact List.mem_cons_self _ _
    · rw [Bool.not_eq_true] at hk
      rw [hk] at h
      exact List.mem_cons_of_mem _ (ih h)

/-! ### `Char.toUpper` facts -/

theorem toNat_ofNat_valid {m : Nat} (h : m.isValidChar) : (Char.ofNat m).toNat = m := by
  rw [Char.ofNat, dif_pos h]
  rfl

theorem toUpper_ne_space {c : Char} (h : c ≠ ' ') : c.toUpper ≠ ' ' := by
  by_cases hc : c.toNat ≥ 97 ∧ c.toNat ≤ 122
  · have hu : c.toUpper = Char.ofNat (c.toNat - 32) := by
      unfold Char.toUpper
      simp [hc]
    rw [hu]
    intro he
    have hval : (c.toNat - 32).isValidChar := Or.inl (by omega)
    have h2 := congrArg Char.toNat he
    rw [toNat_ofNat_valid hval] at h2
    have h3 : (' ').toNat = 32 := rfl
    rw [h3] at h2
    omega
  · have hu : c.toUpper = c := by
      unfold Char.toUpper
      simp [hc]
    rw [hu]
    exact h

/-! ### `joinSep` -/

theorem joinSep_cons (sep : List Char) (w : List Char) {ws : List (List Char)}
    (h : ws ≠ []) : joinSep sep (w :: ws) = w ++ sep ++ joinSep sep ws := by
  cases ws with
  | nil => exact absurd rfl h
  | cons x xs => rfl

theorem joinSep_ne_nil {sep w : List Char} {ws : List (List Char)}
    (hw : w ≠ []) : joinSep sep (w :: ws) ≠ [] := by
  cases ws with
  | nil => exact hw
  | cons x xs =>
    rw [joinSep_cons sep w (by simp)]
    simp [hw]

theorem mem_joinSep {sep c} : ∀ {ws : List (List Char)},
    c ∈ joinSep sep ws → (∃ w ∈ ws, c ∈ w) ∨ c ∈ sep := by
  intro ws
  induction ws with
  | nil => intro h; cases h
  | cons w ws ih =>
    intro h
    cases ws with
    | nil =>
      exact Or.inl ⟨w, List.mem_cons_self _ _, h⟩
    | cons x xs =>
      rw [joinSep_cons sep w (by simp)] at h
      rcases List.mem_append.mp h with h1 | h2
      · rcases List.mem_append.mp h1 with h3 | h4
        · exact Or.inl ⟨w, List.mem_cons_self _ _, h3⟩
        · exact Or.inr h4
      · rcases ih h2 with ⟨v, hv, hc⟩ | hs
        · exact Or.inl ⟨v, List.mem_cons_of_mem _ hv, hc⟩
        · exact Or.inr hs

theorem head?_joinSep {sep : List Char} : ∀ {ws : List (List Char)} {d : Char},
    (∀ w ∈ ws, w ≠ []) → (joinSep sep ws).head? = some d →
    ∃ w ∈ ws, w.head? = some d := by
  intro ws
  induction ws with
  | nil => intro d _ h; cases h
  | cons w ws ih =>
    intro d hne h
    cases ws with
    | nil => exact ⟨w, List.mem_cons_self _ _, h⟩
    | cons x xs =>
      rw [joinSep_cons sep w (by simp)] at h
      have hw : w ≠ [] := hne w (List.mem_cons_self _ _)
      cases w with
      | nil => exact absurd rfl hw
      | cons a t =>
        refine ⟨a :: t, List.mem_cons_self _ _, ?_⟩
        simp only [List.cons_append, List.head?_cons] at h ⊢
        exact h

theorem getLast?_joinSep {sep : List Char} : ∀ {ws : List (List Char)} {d : Char},
    (∀ w ∈ ws, w ≠ []) → (joinSep sep ws).getLast? = some d →
    ∃ w ∈ ws, w.getLast? = some d := by
  intro ws
  induction ws with
  | nil => intro d _ h; cases h
  | cons w ws ih =>
    intro d hne h
    cases ws with
    | nil => exact ⟨w, List.mem_cons_self _ _, h⟩
    | cons x xs =>
      rw [joinSep_cons sep w (by simp)] at h
      have hx : joinSep sep (x :: xs) ≠ [] :=
        joinSep_ne_nil (hne x (by simp))
      have hs : (joinSep sep (x :: xs)).getLast?.isSome :=
        List.getLast?_isSome.mpr hx
      obtain ⟨e, he⟩ := Option.isSome_iff_exists.mp hs
      rw [List.append_assoc, List.getLast?_append, List.getLast?_append, he,
        Option.or_some, Option.or_some] at h
      obtain ⟨v, hv, hvl⟩ := ih (fun u hu => hne u (List.mem_cons_of_mem _ hu))
        (he.trans h)
      exact ⟨v, List.mem_cons_of_mem _ hv, hvl⟩

/-! ### `splitOnList`: fuel elimination and step equations -/

theorem splitGo_eq_of_le (sep : List Char) :
    ∀ (k : Nat) (l : List Char), l.length ≤ k →
      ∀ n m, l.length ≤ n → l.length ≤ m → splitGo sep n l = splitGo sep m l := by
  intro k
  induction k with
  | zero =>
    intro l hl n m _ _
    have : l = [] := by cases l with
      | nil => rfl
      | cons c t => simp at hl
    subst this
    cases n <;> cases m <;> rfl
  | succ k ih =>
    intro l hl n m hn hm
    cases l with
    | nil => cases n <;> cases m <;> rfl
    | cons c rest =>
      simp only [List.length_cons] at hl hn hm
      obtain ⟨n', rfl⟩ : ∃ n', n = n' + 1 := ⟨n - 1, by omega⟩
      obtain ⟨m', rfl⟩ : ∃ m', m = m' + 1 := ⟨m - 1, by omega⟩
      simp only [splitGo]
      by_cases hcond : sep ≠ [] ∧ startsWith (c :: rest) sep = true
      · rw [if_pos hcond, if_pos hcond]
        have hsep : 1 ≤ sep.length := by
          cases hs : sep with
          | nil => exact absurd hs hcond.1
          | cons a b => simp
        have hdl : ((c :: rest).drop sep.length).length = rest.length + 1 - sep.length := by
          simp
        exact congrArg (List.cons [])
          (ih _ (by omega) n' m' (by omega) (by omega))
      · rw [if_neg hcond, if_neg hcond]
        rw [ih rest (by omega) n' m' (by omega) (by omega)]

theorem splitGo_eq_splitOnList {sep : List Char} {n : Nat} {l : List Char}
    (h : l.length ≤ n) : splitGo sep n l = splitOnList sep l :=
  splitGo_eq_of_le sep l.length l le_rfl n l.length h le_rfl

theorem splitOnList_nil (sep : List Char) : splitOnList sep [] = [[]] := rfl

theorem splitOnList_pos {sep : List Char} {c : Char} {rest : List Char}
    (h1 : sep ≠ []) (h2 : startsWith (c :: rest) sep = true) :
    splitOnList sep (c :: rest) =
      [] :: splitOnList sep ((c :: rest).drop sep.length) := by
  show splitGo sep (rest.length + 1) (c :: rest) = _
  rw [splitGo, if_pos ⟨h1, h2⟩]
  congr 1
  apply splitGo_eq_splitOnList
  have hsep : 1 ≤ sep.length := by
    cases hs : sep with
    | nil => exact absurd hs h1
    | cons a b => simp
  simp only [List.length_drop, List.length_cons]
  omega

theorem splitOnList_neg {sep : List Char} {c : Char} {rest : List Char}
    (h : ¬(sep ≠ [] ∧ startsWith (c :: rest) sep = true)) :
    splitOnList sep (c :: rest) =
      match splitOnList sep rest with
      | [] => [[c]]
      | w :: ws => (c :: w) :: ws := by
  show splitGo sep (rest.length + 1) (c :: rest) = _
  rw [splitGo, if_neg h, splitGo_eq_splitOnList (le_refl rest.length)]

theorem splitOnList_ne_nil (sep l : List Char) : splitOnList sep l ≠ [] := by
  cases l with
  | nil => simp [splitOnList_nil]
  | cons c rest =>
    by_cases h : sep ≠ [] ∧ startsWith (c :: rest) sep = true
    · rw [splitOnList_pos h.1 h.2]; simp
    · rw [splitOnList_neg h]
      cases splitOnList sep rest <;> simp

theorem mem_of_mem_splitOnList_bound {sep : List Char} :
    ∀ (k : Nat) (l : List Char), l.length ≤ k →
      ∀ p ∈ splitOnList sep l, ∀ c ∈ p, c ∈ l := by
  intro k
  induction k with
  | zero =>
    intro l hl p hp c hc
    have : l = [] := by cases l with
      | nil => rfl
      | cons a t => simp at hl
    subst this
    rw [splitOnList_nil] at hp
    simp at hp
    subst hp
    cases hc
  | succ k ih =>
    intro l hl p hp c hc
    cases l with
    | nil =>
      rw [splitOnList_nil] at hp
      simp at hp
      subst hp
      cases hc
    | cons a rest =>
      simp only [List.length_cons] at hl
      by_cases h : sep ≠ [] ∧ startsWith (a :: rest) sep = true
      · rw [splitOnList_pos h.1 h.2] at hp
        rcases List.mem_cons.mp hp with h1 | h2
        · subst h1; cases hc
        · have hsep : 1 ≤ sep.length := by
            cases hs : sep with
            | nil => exact absurd hs h.1
            | cons x y => simp
          have hdl : ((a :: rest).drop sep.length).length = rest.length + 1 - sep.length := by
            simp
          have := ih _ (by omega) p h2 c hc
          exact (List.drop_sublist _ _).mem this
      · rw [splitOnList_neg h] at hp
        cases hsp : splitOnList sep rest with
        | nil => exact absurd hsp (splitOnList_ne_nil sep rest)
        | cons w ws =>
          rw [hsp] at hp
          rcases List.mem_cons.mp hp with h1 | h2
          · subst h1
            rcases List.mem_cons.mp hc with h3 | h4
            · subst h3; exact List.mem_cons_self _ _
            · have := ih rest (by omega) w
                (hsp ▸ List.mem_cons_self w ws) c h4
              exact List.mem_cons_of_mem _ this
          · have := ih rest (by omega) p
              (hsp ▸ List.mem_cons_of_mem w h2) c hc
            exact List.mem_cons_of_mem _ this

theorem mem_of_mem_splitOnList {sep l p : List Char}
    (hp : p ∈ splitOnList sep l) {c : Char} (hc : c ∈ p) : c ∈ l :=
  mem_of_mem_splitOnList_bound l.length l le_rfl p hp c hc

/-! ### Splitting undoes joining, for the default separators -/

theorem startsWith_single {c a : Char} {l : List Char} :
    startsWith (c :: l) [a] = true ↔ c = a := by
  simp [startsWith]

theorem startsWith_wsep_elim {c : Char} {l : List Char}
    (h : startsWith (c :: l) DEFAULT_WORD_SEPARATOR = true) :
    c = ' ' ∧ '/' ∈ l := by
  cases l with
  | nil => simp [DEFAULT_WORD_SEPARATOR, startsWith] at h
  | cons d t =>
    simp only [DEFAULT_WORD_SEPARATOR, startsWith, Bool.and_eq_true,
      decide_eq_true_eq] at h
    exact ⟨h.1, h.2.1 ▸ List.mem_cons_self _ _⟩

theorem splitOnList_single_append {a : Char} :
    ∀ {w : List Char} (rest : List Char), a ∉ w →
      splitOnList [a] (w ++ a :: rest) = w :: splitOnList [a] rest := by
  intro w
  induction w with
  | nil =>
    intro rest _
    rw [List.nil_append,
      splitOnList_pos (by simp) (startsWith_single.mpr rfl)]
    simp
  | cons c w' ih =>
    intro rest hna
    have hca : ¬(c = a) := fun he => hna (he ▸ List.mem_cons_self _ _)
    rw [List.cons_append,
      splitOnList_neg (fun hc => hca (startsWith_single.mp hc.2)),
      ih rest (fun hm => hna (List.mem_cons_of_mem _ hm))]

theorem splitOnList_single_nosplit {a : Char} :
    ∀ {l : List Char}, a ∉ l → splitOnList [a] l = [l] := by
  intro l
  induction l with
  | nil => intro _; rfl
  | cons c rest ih =>
    intro hna
    have hca : ¬(c = a) := fun he => hna (he ▸ List.mem_cons_self _ _)
    rw [splitOnList_neg (fun hc => hca (startsWith_single.mp hc.2)),
      ih (fun hm => hna (List.mem_cons_of_mem _ hm))]

theorem splitOnList_single_joinSep {a : Char} :
    ∀ {ws : List (List Char)}, ws ≠ [] → (∀ w ∈ ws, a ∉ w) →
      splitOnList [a] (joinSep [a] ws) = ws := by
  intro ws
  induction ws with
  | nil => intro h; exact absurd rfl h
  | cons x ws ih =>
    intro _ hna
    cases ws with
    | nil =>
      exact splitOnList_single_nosplit (hna x (List.mem_cons_self _ _))
    | cons y ws' =>
      rw [joinSep_cons _ _ (by simp), List.append_assoc, List.singleton_append,
        splitOnList_single_append _ (hna x (List.mem_cons_self _ _)),
        ih (by simp) (fun w hw => hna w (List.mem_cons_of_mem _ hw))]

theorem splitOnList_wsep_nosplit :
    ∀ {l : List Char}, '/' ∉ l → splitOnList DEFAULT_WORD_SEPARATOR l = [l] := by
  intro l
  induction l with
  | nil => intro _; rfl
  | cons c rest ih =>
    intro hns
    have hsw : ¬ startsWith (c :: rest) DEFAULT_WORD_SEPARATOR = true := by
      intro hst
      exact hns (List.mem_cons_of_mem _ (startsWith_wsep_elim hst).2)
    rw [splitOnList_neg (fun hc => hsw hc.2),
      ih (fun hm => hns (List.mem_cons_of_mem _ hm))]

theorem splitOnList_wsep_append :
    ∀ {w : List Char} (rest : List Char), '/' ∉ w →
      splitOnList DEFAULT_WORD_SEPARATOR (w ++ DEFAULT_WORD_SEPARATOR ++ rest) =
        w :: splitOnList DEFAULT_WORD_SEPARATOR rest := by
  intro w
  induction w with
  | nil =>
    intro rest _
    show splitOnList DEFAULT_WORD_SEPARATOR (' ' :: '/' :: ' ' :: rest) = _
    rw [splitOnList_pos (by simp [DEFAULT_WORD_SEPARATOR])
      (by simp [DEFAULT_WORD_SEPARATOR, startsWith])]
    simp [DEFAULT_WORD_SEPARATOR]
  | cons c w' ih =>
    intro rest hna
    have hsw : ¬ startsWith (c :: (w' ++ DEFAULT_WORD_SEPARATOR ++ rest))
        DEFAULT_WORD_SEPARATOR = true := by
      intro hst
      -- a match here would need the second character to be '/', but that
      -- position holds the first character of `w'` or the separator's
      -- leading space
      cases hw' : w' with
      | nil =>
        subst hw'
        simp [DEFAULT_WORD_SEPARATOR, startsWith] at hst
      | cons d t =>
        subst hw'
        simp only [DEFAULT_WORD_SEPARATOR, List.cons_append, startsWith,
          Bool.and_eq_true, decide_eq_true_eq] at hst
        exact hna (hst.2.1 ▸ List.mem_cons_of_mem _ (List.mem_cons_self _ _))
    have hna' : '/' ∉ w' := fun hm => hna (List.mem_cons_of_mem _ hm)
    show splitOnList DEFAULT_WORD_SEPARATOR
      (c :: (w' ++ DEFAULT_WORD_SEPARATOR ++ rest)) = _
    rw [splitOnList_neg (fun hc => hsw hc.2), ih rest hna']

theorem splitOnList_wsep_joinSep :
    ∀ {ws : List (List Char)}, ws ≠ [] → (∀ w ∈ ws, '/' ∉ w) →
      splitOnList DEFAULT_WORD_SEPARATOR (joinSep DEFAULT_WORD_SEPARATOR ws) = ws := by
  intro ws
  induction ws with
  | nil => intro h; exact absurd rfl h
  | cons x ws ih =>
    intro _ hna
    cases ws with
    | nil =>
      exact splitOnList_wsep_nosplit (hna x (List.mem_cons_self _ _))
    | cons y ws' =>
      rw [joinSep_cons _ _ (by simp),
        splitOnList_wsep_append _ (hna x (List.mem_cons_self _ _)),
        ih (by simp) (fun w hw => hna w (List.mem_cons_of_mem _ hw))]

/-! ### `strip` -/

theorem strip_eq_nil_iff {l : List Char} :
    strip l = [] ↔ ∀ c ∈ l, pyIsSpace c = true := by
  unfold strip
  rw [List.reverse_eq_nil_iff, List.dropWhile_eq_nil_iff]
  constructor
  · intro h c hc
    by_cases hsp : pyIsSpace c = true
    · exact hsp
    · exfalso
      have hc' : c ∈ l.dropWhile pyIsSpace := by
        have hsplit := List.takeWhile_append_dropWhile pyIsSpace l
        rcases List.mem_append.mp (hsplit ▸ hc) with h1 | h2
        · exact absurd (List.mem_takeWhile_imp h1) hsp
        · exact h2
      exact hsp (h c (List.mem_reverse.mpr hc'))
  · intro h c hc
    exact h c ((List.dropWhile_sublist pyIsSpace).mem (List.mem_reverse.mp hc))

theorem dropWhile_head_not {p : Char → Bool} :
    ∀ {l : List Char} {d : Char} {t : List Char},
      List.dropWhile p l = d :: t → p d = false := by
  intro l
  induction l with
  | nil => intro d t h; cases h
  | cons c rest ih =>
    intro d t h
    rw [List.dropWhile_cons] at h
    by_cases hc : p c = true
    · rw [if_pos hc] at h
      exact ih h
    · rw [if_neg hc] at h
      cases h
      exact Bool.not_eq_true _ |>.mp hc

theorem strip_head_not {l : List Char} {d : Char}
    (h : (strip l).head? = some d) : pyIsSpace d = false := by
  unfold strip at h
  rw [List.head?_reverse] at h
  have hYsplit : (l.dropWhile pyIsSpace).reverse =
      (l.dropWhile pyIsSpace).reverse.takeWhile pyIsSpace ++
        (l.dropWhile pyIsSpace).reverse.dropWhile pyIsSpace :=
    (List.takeWhile_append_dropWhile _ _).symm
  have h2 : (l.dropWhile pyIsSpace).reverse.getLast? = some d := by
    rw [hYsplit, List.getLast?_append, h]
    rfl
  have h3 : (l.dropWhile pyIsSpace).head? = some d := by
    rw [← List.getLast?_reverse]
    exact h2
  cases hz : l.dropWhile pyIsSpace with
  | nil => rw [hz] at h3; cases h3
  | cons x t =>
    rw [hz] at h3
    have hxd : x = d := by
      simpa using h3
    exact hxd ▸ dropWhile_head_not hz

theorem strip_last_not {l : List Char} {d : Char}
    (h : (strip l).getLast? = some d) : pyIsSpace d = false := by
  unfold strip at h
  rw [List.getLast?_reverse] at h
  cases hd : (l.dropWhile pyIsSpace).reverse.dropWhile pyIsSpace with
  | nil => rw [hd] at h; cases h
  | cons x t =>
    rw [hd] at h
    have hxd : x = d := by simpa using h
    exact hxd ▸ dropWhile_head_not hd

theorem strip_eq_self {l : List Char}
    (h1 : ∀ d, l.head? = some d → pyIsSpace d = false)
    (h2 : ∀ d, l.getLast? = some d → pyIsSpace d = false) : strip l = l := by
  cases l with
  | nil => rfl
  | cons c t =>
    have hc : pyIsSpace c = false := h1 c rfl
    unfold strip
    rw [List.dropWhile_cons_of_neg (by simp [hc])]
    cases hr : (c :: t).reverse with
    | nil => simp at hr
    | cons x r =>
      have hx : (c :: t).getLast? = some x := by
        rw [← List.head?_reverse, hr]
        rfl
      rw [List.dropWhile_cons_of_neg (by simp [h2 x hx])]
      rw [← hr, List.reverse_reverse]

/-! ### `wordsOf`: fuel elimination, step equations, membership -/

theorem wordsOfGo_eq_of_le :
    ∀ (k : Nat) (l : List Char), l.length ≤ k →
      ∀ n m, l.length ≤ n → l.length ≤ m → wordsOfGo n l = wordsOfGo m l := by
  intro k
  induction k with
  | zero =>
    intro l hl n m _ _
    have : l = [] := by cases l with
      | nil => rfl
      | cons c t => simp at hl
    subst this
    cases n <;> cases m <;> rfl
  | succ k ih =>
    intro l hl n m hn hm
    cases l with
    | nil => cases n <;> cases m <;> rfl
    | cons c t =>
      simp only [List.length_cons] at hl hn hm
      obtain ⟨n', rfl⟩ : ∃ n', n = n' + 1 := ⟨n - 1, by omega⟩
      obtain ⟨m', rfl⟩ : ∃ m', m = m' + 1 := ⟨m - 1, by omega⟩
      simp only [wordsOfGo]
      by_cases hc : c = ' '
      · rw [if_pos hc, if_pos hc]
        exact ih t (by omega) n' m' (by omega) (by omega)
      · rw [if_neg hc, if_neg hc]
        have hdw : (t.dropWhile (fun d => d ≠ ' ')).length ≤ t.length :=
          (List.dropWhile_sublist _).length_le
        rw [ih _ (by omega) n' m' (by omega) (by omega)]

theorem wordsOfGo_eq_wordsOf {n : Nat} {l : List Char} (h : l.length ≤ n) :
    wordsOfGo n l = wordsOf l :=
  wordsOfGo_eq_of_le l.length l le_rfl n l.length h le_rfl

theorem wordsOf_nil : wordsOf [] = [] := rfl

theorem wordsOf_cons_space {t : List Char} : wordsOf (' ' :: t) = wordsOf t := by
  show wordsOfGo (t.length + 1) (' ' :: t) = _
  rw [wordsOfGo, if_pos rfl]
  exact wordsOfGo_eq_wordsOf le_rfl

theorem wordsOf_cons_ne {c : Char} {t : List Char} (h : ¬ c = ' ') :
    wordsOf (c :: t) =
      (c :: t.takeWhile (fun d => d ≠ ' ')) :: wordsOf (t.dropWhile (fun d => d ≠ ' ')) := by
  show wordsOfGo (t.length + 1) (c :: t) = _
  rw [wordsOfGo, if_neg h]
  rw [wordsOfGo_eq_wordsOf (List.dropWhile_sublist _).length_le]

theorem mem_takeWhile_pred {p : Char → Bool} :
    ∀ {l : List Char} {d : Char}, d ∈ List.takeWhile p l → p d = true := by
  intro l
  induction l with
  | nil => intro d h; cases h
  | cons c t ih =>
    intro d h
    rw [List.takeWhile_cons] at h
    by_cases hc : p c = true
    · rw [if_pos hc] at h
      rcases List.mem_cons.mp h with h1 | h2
      · exact h1 ▸ hc
      · exact ih h2
    · rw [if_neg hc] at h
      cases h

theorem wordsOf_facts :
    ∀ (k : Nat) (l : List Char), l.length ≤ k →
      ∀ w ∈ wordsOf l, w ≠ [] ∧ ∀ c ∈ w, c ∈ l ∧ ¬ c = ' ' := by
  intro k
  induction k with
  | zero =>
    intro l hl w hw
    have : l = [] := by cases l with
      | nil => rfl
      | cons c t => simp at hl
    subst this
    rw [wordsOf_nil] at hw
    cases hw
  | succ k ih =>
    intro l hl w hw
    cases l with
    | nil => rw [wordsOf_nil] at hw; cases hw
    | cons c t =>
      simp only [List.length_cons] at hl
      by_cases hc : c = ' '
      · subst hc
        rw [wordsOf_cons_space] at hw
        obtain ⟨hne, hmem⟩ := ih t (by omega) w hw
        exact ⟨hne, fun d hd => ⟨List.mem_cons_of_mem _ (hmem d hd).1, (hmem d hd).2⟩⟩
      · rw [wordsOf_cons_ne hc] at hw
        rcases List.mem_cons.mp hw with h1 | h2
        · subst h1
          refine ⟨by simp, fun d hd => ?_⟩
          rcases List.mem_cons.mp hd with h3 | h4
          · subst h3
            exact ⟨List.mem_cons_self _ _, hc⟩
          · have hdt : d ∈ t := (List.takeWhile_sublist _).mem h4
            have hdne : (fun d => decide (d ≠ ' ')) d = true := mem_takeWhile_pred h4
            simp only [decide_not, Bool.not_eq_true', decide_eq_false_iff_not] at hdne
            exact ⟨List.mem_cons_of_mem _ hdt, hdne⟩
        · have hlen : (t.dropWhile (fun d => d ≠ ' ')).length ≤ k :=
            le_trans (List.dropWhile_sublist _).length_le (by omega)
          obtain ⟨hne, hmem⟩ := ih _ hlen w h2
          refine ⟨hne, fun d hd => ?_⟩
          obtain ⟨hdl, hdne⟩ := hmem d hd
          exact ⟨List.mem_cons_of_mem _ ((List.dropWhile_sublist _).mem hdl), hdne⟩

theorem mem_wordsOf {l w : List Char} (hw : w ∈ wordsOf l) :
    w ≠ [] ∧ ∀ c ∈ w, c ∈ l ∧ ¬ c = ' ' :=
  wordsOf_facts l.length l le_rfl w hw

/-- `takeWhile`/`dropWhile` split around the first failing element. -/
theorem takeWhile_dropWhile_boundary {p : Char → Bool} :
    ∀ {t : List Char} (y : Char) (r : List Char),
      (∀ c ∈ t, p c = true) → p y = false →
      (t ++ y :: r).takeWhile p = t ∧ (t ++ y :: r).dropWhile p = y :: r := by
  intro t
  induction t with
  | nil =>
    intro y r _ hy
    constructor
    · simp [List.takeWhile_cons, hy]
    · simp [List.dropWhile_cons, hy]
  | cons a t ih =>
    intro y r hall hy
    have ha : p a = true := hall a (List.mem_cons_self _ _)
    obtain ⟨ht, hd⟩ := ih y r (fun c hc => hall c (List.mem_cons_of_mem _ hc)) hy
    constructor
    · simp only [List.cons_append, List.takeWhile_cons, ha, if_true]
      rw [ht]
    · simp only [List.cons_append, List.dropWhile_cons, ha, if_true]
      rw [hd]

theorem wordsOf_nospace {l : List Char} (hne : l ≠ [])
    (hns : ∀ c ∈ l, ¬ c = ' ') : wordsOf l = [l] := by
  cases l with
  | nil => exact absurd rfl hne
  | cons c t =>
    rw [wordsOf_cons_ne (hns c (List.mem_cons_self _ _))]
    have htw : t.takeWhile (fun d => d ≠ ' ') = t := by
      rw [List.takeWhile_eq_self_iff]
      intro d hd
      simp [hns d (List.mem_cons_of_mem _ hd)]
    have hdw : t.dropWhile (fun d => d ≠ ' ') = [] := by
      rw [List.dropWhile_eq_nil_iff]
      intro d hd
      simp [hns d (List.mem_cons_of_mem _ hd)]
    rw [htw, hdw, wordsOf_nil]

theorem wordsOf_word_append {w : List Char} (rest : List Char)
    (hne : w ≠ []) (hns : ∀ c ∈ w, ¬ c = ' ') :
    wordsOf (w ++ ' ' :: rest) = w :: wordsOf rest := by
  cases w with
  | nil => exact absurd rfl hne
  | cons c t =>
    rw [List.cons_append, wordsOf_cons_ne (hns c (List.mem_cons_self _ _))]
    obtain ⟨htw, hdw⟩ := takeWhile_dropWhile_boundary (p := fun d => d ≠ ' ')
      ' ' rest (fun d hd => by simp [hns d (List.mem_cons_of_mem _ hd)]) (by simp)
    rw [htw, hdw, wordsOf_cons_space]

theorem wordsOf_joinSep :
    ∀ {ws : List (List Char)}, (∀ w ∈ ws, w ≠ []) →
      (∀ w ∈ ws, ∀ c ∈ w, ¬ c = ' ') →
      wordsOf (joinSep [' '] ws) = ws := by
  intro ws
  induction ws with
  | nil => intro _ _; rfl
  | cons x ws ih =>
    intro hne hns
    cases ws with
    | nil =>
      exact wordsOf_nospace (hne x (List.mem_cons_self _ _))
        (hns x (List.mem_cons_self _ _))
    | cons y ws' =>
      rw [joinSep_cons _ _ (by simp), List.append_assoc, List.singleton_append,
        wordsOf_word_append _ (hne x (List.mem_cons_self _ _))
          (hns x (List.mem_cons_self _ _)),
        ih (fun w hw => hne w (List.mem_cons_of_mem _ hw))
          (fun w hw => hns w (List.mem_cons_of_mem _ hw))]

/-! ### Characterising `encode_to_morse` -/

theorem encode_go_run {lsep : List Char} :
    ∀ {w : List Char} (t : List Char) (words cur : List (List Char)),
      (∀ c ∈ w, ¬ c = ' ') →
      (∀ c ∈ w, (MORSE_CODE_TABLE.lookup c).isSome) →
      encode_go lsep (w ++ t) words cur = encode_go lsep t words (cur ++ w.map codeOf) := by
  intro w
  induction w with
  | nil => intro t words cur _ _; simp
  | cons c w' ih =>
    intro t words cur hns hsup
    have hc : ¬ c = ' ' := hns c (List.mem_cons_self _ _)
    obtain ⟨code, hcode⟩ := Option.isSome_iff_exists.mp (hsup c (List.mem_cons_self _ _))
    rw [List.cons_append, encode_go, if_neg hc, hcode]
    show encode_go lsep (w' ++ t) words (cur ++ [code]) = _
    rw [ih t words (cur ++ [code])
      (fun d hd => hns d (List.mem_cons_of_mem _ hd))
      (fun d hd => hsup d (List.mem_cons_of_mem _ hd))]
    have : codeOf c = code := by rw [codeOf, hcode]; rfl
    rw [List.map_cons, this, List.append_assoc]
    rfl

theorem encode_go_ok {lsep : List Char} :
    ∀ (k : Nat) (t : List Char), t.length ≤ k →
      (∀ c ∈ t, ¬ c = ' ' → (MORSE_CODE_TABLE.lookup c).isSome) →
      ∀ words, encode_go lsep t words [] =
        .ok (words ++ (wordsOf t).map (encWord lsep)) := by
  intro k
  induction k with
  | zero =>
    intro t ht _ words
    have : t = [] := by cases t with
      | nil => rfl
      | cons c r => simp at ht
    subst this
    simp [encode_go, wordsOf_nil]
  | succ k ih =>
    intro t ht hsup words
    cases t with
    | nil => simp [encode_go, wordsOf_nil]
    | cons c t' =>
      simp only [List.length_cons] at ht
      by_cases hc : c = ' '
      · subst hc
        rw [encode_go, if_pos rfl]
        simp only [List.isEmpty_nil, if_true]
        rw [ih t' (by omega) (fun d hd hdn => hsup d (List.mem_cons_of_mem _ hd) hdn) words,
          wordsOf_cons_space]
      · set w : List Char := c :: t'.takeWhile (fun d => d ≠ ' ') with hw
        set rest : List Char := t'.dropWhile (fun d => d ≠ ' ') with hrest
        have hsplit : c :: t' = w ++ rest := by
          rw [hw, hrest, List.cons_append, List.takeWhile_append_dropWhile]
        have hwns : ∀ d ∈ w, ¬ d = ' ' := by
          intro d hd
          rcases List.mem_cons.mp hd with h1 | h2
          · exact h1 ▸ hc
          · have := mem_takeWhile_pred h2
            simpa using this
        have hwmem : ∀ d ∈ w, d ∈ c :: t' := by
          intro d hd
          rcases List.mem_cons.mp hd with h1 | h2
          · exact h1 ▸ List.mem_cons_self _ _
          · exact List.mem_cons_of_mem _ ((List.takeWhile_sublist _).mem h2)
        have hwsup : ∀ d ∈ w, (MORSE_CODE_TABLE.lookup d).isSome := by
          intro d hd
          exact hsup d (hwmem d hd) (hwns d hd)
        rw [hsplit, encode_go_run rest words [] hwns hwsup, List.nil_append]
        have hwne2 : w ≠ [] := by simp [hw]
        cases hr : rest with
        | nil =>
          rw [encode_go]
          rw [if_neg (by simp [hw])]
          rw [List.append_nil, wordsOf_nospace hwne2 hwns]
          simp [encWord]
        | cons d rest' =>
          have hd : d = ' ' := by
            have := dropWhile_head_not (hrest ▸ hr)
            simpa using this
          subst hd
          rw [encode_go, if_pos rfl, if_neg (by simp [hw])]
          have hlen : rest'.length ≤ k := by
            have h1 : rest.length ≤ t'.length := by
              rw [hrest]
              exact (List.dropWhile_sublist _).length_le
            rw [hr] at h1
            simp only [List.length_cons] at h1
            omega
          have hrsup : ∀ d ∈ rest', ¬ d = ' ' → (MORSE_CODE_TABLE.lookup d).isSome := by
            intro d hd hdn
            have hdrest : d ∈ rest := by rw [hr]; exact List.mem_cons_of_mem _ hd
            have : d ∈ t' := (List.dropWhile_sublist _).mem (hrest ▸ hdrest)
            exact hsup d (List.mem_cons_of_mem _ this) hdn
          rw [ih rest' hlen hrsup]
          rw [wordsOf_word_append rest' hwne2 hwns]
          simp [encWord]

theorem encode_to_morse_ok {text lsep wsep : List Char}
    (h : ∀ c ∈ text, supportedChar c) :
    encode_to_morse text lsep wsep =
      .ok (joinSep wsep ((wordsOf (normalize_text text)).map (encWord lsep))) := by
  have hsn : ∀ c ∈ normalize_text text, ¬ c = ' ' →
      (MORSE_CODE_TABLE.lookup c).isSome := by
    intro c hc hcn
    obtain ⟨d, hd, hde⟩ := List.mem_map.mp hc
    by_cases hds : d = ' '
    · exact absurd (by rw [← hde, if_pos hds]; exact hds) hcn
    · rw [← hde, if_neg hds]
      rcases h d hd with h1 | h2
      · exact absurd h1 hds
      · exact h2
  rw [encode_to_morse, encode_go_ok (normalize_text text).length _ le_rfl hsn []]
  rfl

theorem encode_go_error_mem {lsep : List Char} :
    ∀ {t : List Char} {words cur : List (List Char)} {e : Char},
      encode_go lsep t words cur = .error e →
      e ∈ t ∧ ¬ e = ' ' ∧ MORSE_CODE_TABLE.lookup e = none := by
  intro t
  induction t with
  | nil =>
    intro words cur e h
    rw [encode_go] at h
    cases h
  | cons c t' ih =>
    intro words cur e h
    rw [encode_go] at h
    by_cases hc : c = ' '
    · rw [if_pos hc] at h
      by_cases hcur : cur.isEmpty
      · rw [if_pos hcur] at h
        obtain ⟨h1, h2, h3⟩ := ih h
        exact ⟨List.mem_cons_of_mem _ h1, h2, h3⟩
      · rw [if_neg hcur] at h
        obtain ⟨h1, h2, h3⟩ := ih h
        exact ⟨List.mem_cons_of_mem _ h1, h2, h3⟩
    · rw [if_neg hc] at h
      cases hl : MORSE_CODE_TABLE.lookup c with
      | some code =>
        rw [hl] at h
        obtain ⟨h1, h2, h3⟩ := ih h
        exact ⟨List.mem_cons_of_mem _ h1, h2, h3⟩
      | none =>
        rw [hl] at h
        cases h
        exact ⟨List.mem_cons_self _ _, hc, hl⟩

theorem encode_go_error_exists {lsep : List Char} :
    ∀ {t : List Char} (words cur : List (List Char)),
      (∃ c ∈ t, ¬ c = ' ' ∧ MORSE_CODE_TABLE.lookup c = none) →
      ∃ e, encode_go lsep t words cur = .error e := by
  intro t
  induction t with
  | nil =>
    intro words cur h
    obtain ⟨c, hc, _⟩ := h
    cases hc
  | cons c t' ih =>
    intro words cur h
    obtain ⟨d, hd, hdn, hdl⟩ := h
    rw [encode_go]
    by_cases hc : c = ' '
    · have hdt : d ∈ t' := by
        rcases List.mem_cons.mp hd with h1 | h2
        · exact absurd (h1 ▸ hc) hdn
        · exact h2
      rw [if_pos hc]
      by_cases hcur : cur.isEmpty
      · rw [if_pos hcur]
        exact ih _ _ ⟨d, hdt, hdn, hdl⟩
      · rw [if_neg hcur]
        exact ih _ _ ⟨d, hdt, hdn, hdl⟩
    · rw [if_neg hc]
      cases hl : MORSE_CODE_TABLE.lookup c with
      | some code =>
        have hdt : d ∈ t' := by
          rcases List.mem_cons.mp hd with h1 | h2
          · subst h1
            rw [hdl] at hl
            cases hl
          · exact h2
        exact ih _ _ ⟨d, hdt, hdn, hdl⟩
      | none => exact ⟨c, rfl⟩

theorem encode_error_iff {text lsep wsep : List Char} :
    (∃ e, encode_to_morse text lsep wsep = .error e) ↔
      ∃ c ∈ text, ¬ c = ' ' ∧ MORSE_CODE_TABLE.lookup c.toUpper = none := by
  constructor
  · rintro ⟨e, he⟩
    rw [encode_to_morse] at he
    cases hg : encode_go lsep (normalize_text text) [] [] with
    | ok r => rw [hg] at he; cases he
    | error e' =>
      rw [hg] at he
      cases he
      obtain ⟨h1, h2, h3⟩ := encode_go_error_mem hg
      obtain ⟨c, hc, hce⟩ := List.mem_map.mp h1
      by_cases hcs : c = ' '
      · rw [if_pos hcs] at hce
        exact absurd (hce ▸ hcs) h2
      · rw [if_neg hcs] at hce
        exact ⟨c, hc, hcs, hce ▸ h3⟩
  · rintro ⟨c, hc, hcn, hcl⟩
    have hmem : c.toUpper ∈ normalize_text text := by
      have : c.toUpper = if c = ' ' then c else c.toUpper := by rw [if_neg hcn]
      exact this ▸ List.mem_map_of_mem _ hc
    obtain ⟨e, he⟩ := @encode_go_error_exists lsep (normalize_text text) [] []
      ⟨c.toUpper, hmem, toUpper_ne_space hcn, hcl⟩
    exact ⟨e, by rw [encode_to_morse, he]⟩

theorem encode_error_value {text lsep wsep : List Char} {e : Char}
    (h : encode_to_morse text lsep wsep = .error e) :
    ∃ c ∈ text, ¬ c = ' ' ∧ e = c.toUpper ∧ MORSE_CODE_TABLE.lookup e = none := by
  rw [encode_to_morse] at h
  cases hg : encode_go lsep (normalize_text text) [] [] with
  | ok r => rw [hg] at h; cases h
  | error e' =>
    rw [hg] at h
    cases h
    obtain ⟨h1, h2, h3⟩ := encode_go_error_mem hg
    obtain ⟨c, hc, hce⟩ := List.mem_map.mp h1
    by_cases hcs : c = ' '
    · rw [if_pos hcs] at hce
      exact absurd (hce ▸ hcs) h2
    · rw [if_neg hcs] at hce
      exact ⟨c, hc, hcs, hce.symm, h3⟩

/-! ### Decoding -/

theorem mem_joinSep_of_mem {sep : List Char} :
    ∀ {ws : List (List Char)} {w : List Char} {c : Char},
      w ∈ ws → c ∈ w → c ∈ joinSep sep ws := by
  intro ws
  induction ws with
  | nil => intro w c hw _; cases hw
  | cons x ws ih =>
    intro w c hw hc
    cases ws with
    | nil =>
      rcases List.mem_cons.mp hw with h1 | h2
      · exact h1 ▸ hc
      · cases h2
    | cons y ws' =>
      rw [joinSep_cons _ _ (by simp)]
      rcases List.mem_cons.mp hw with h1 | h2
      · exact List.mem_append.mpr (Or.inl (List.mem_append.mpr (Or.inl (h1 ▸ hc))))
      · exact List.mem_append.mpr (Or.inr (ih h2 hc))

theorem key_of_lookup_isSome {c : Char}
    (h : (MORSE_CODE_TABLE.lookup c).isSome) :
    c.toUpper = c ∧ ¬ c = ' ' := by
  obtain ⟨v, hv⟩ := Option.isSome_iff_exists.mp h
  have hmem : (c, v) ∈ MORSE_CODE_TABLE := mem_of_lookup_eq_some hv
  refine ⟨table_key_toUpper _ hmem, ?_⟩
  intro he
  subst he
  have hnone : MORSE_CODE_TABLE.lookup ' ' = none := by decide
  rw [hnone] at hv
  cases hv

theorem code_facts {d : Char} {v : List Char}
    (h : MORSE_CODE_TABLE.lookup d = some v) :
    v ≠ [] ∧ ∀ x ∈ v, x = '.' ∨ x = '-' := by
  have hmem : (d, v) ∈ MORSE_CODE_TABLE := mem_of_lookup_eq_some h
  exact ⟨table_code_ne_nil _ hmem, table_code_chars _ hmem⟩

theorem rev_lookup_of_lookup {c : Char} {v : List Char}
    (h : MORSE_CODE_TABLE.lookup c = some v) :
    REVERSE_MORSE_CODE_TABLE.lookup v = some c :=
  table_reverse_lookup _ (mem_of_lookup_eq_some h)

theorem decode_letters_codes :
    ∀ {w : List Char}, (∀ c ∈ w, (MORSE_CODE_TABLE.lookup c).isSome) →
      decode_letters (w.map codeOf) = .ok w := by
  intro w
  induction w with
  | nil => intro _; rfl
  | cons c w' ih =>
    intro hsup
    obtain ⟨v, hv⟩ := Option.isSome_iff_exists.mp (hsup c (List.mem_cons_self _ _))
    have hco : codeOf c = v := by rw [codeOf, hv]; rfl
    rw [List.map_cons, decode_letters, hco, rev_lookup_of_lookup hv,
      ih (fun d hd => hsup d (List.mem_cons_of_mem _ hd))]
    rfl

theorem decode_letters_ok_facts :
    ∀ {toks : List (List Char)} {cs : List Char},
      decode_letters toks = .ok cs →
      cs.length = toks.length ∧
        ∀ c ∈ cs, (MORSE_CODE_TABLE.lookup c).isSome ∧ c.isLower = false ∧ c ≠ ' ' := by
  intro toks
  induction toks with
  | nil =>
    intro cs h
    rw [decode_letters] at h
    cases h
    exact ⟨rfl, fun c hc => absurd hc (List.not_mem_nil c)⟩
  | cons t ts ih =>
    intro cs h
    rw [decode_letters] at h
    cases hl : REVERSE_MORSE_CODE_TABLE.lookup t with
    | none => rw [hl] at h; cases h
    | some c =>
      rw [hl] at h
      cases hrec : decode_letters ts with
      | error e => rw [hrec] at h; cases h
      | ok cs' =>
        rw [hrec] at h
        simp only [Except.map, Option.some.injEq] at h
        cases h
        obtain ⟨hlen, hfacts⟩ := ih hrec
        have hcfact := rev_table_value_facts _ (mem_of_lookup_eq_some hl)
        refine ⟨by simp [hlen], fun d hd => ?_⟩
        rcases List.mem_cons.mp hd with h1 | h2
        · exact h1 ▸ hcfact
        · exact hfacts d h2

theorem decode_letters_error_iff :
    ∀ {toks : List (List Char)},
      (∃ e, decode_letters toks = .error e) ↔
        ∃ t ∈ toks, REVERSE_MORSE_CODE_TABLE.lookup t = none := by
  intro toks
  induction toks with
  | nil =>
    constructor
    · rintro ⟨e, he⟩
      rw [decode_letters] at he
      cases he
    · rintro ⟨t, ht, _⟩
      cases ht
  | cons t ts ih =>
    constructor
    · rintro ⟨e, he⟩
      rw [decode_letters] at he
      cases hl : REVERSE_MORSE_CODE_TABLE.lookup t with
      | none => exact ⟨t, List.mem_cons_self _ _, hl⟩
      | some c =>
        rw [hl] at he
        cases hrec : decode_letters ts with
        | error e' =>
          obtain ⟨u, hu, hul⟩ := ih.mp ⟨e', hrec⟩
          exact ⟨u, List.mem_cons_of_mem _ hu, hul⟩
        | ok cs => rw [hrec] at he; cases he
    · rintro ⟨u, hu, hul⟩
      rw [decode_letters]
      cases hl : REVERSE_MORSE_CODE_TABLE.lookup t with
      | none => exact ⟨t, rfl⟩
      | some c =>
        have hut : u ∈ ts := by
          rcases List.mem_cons.mp hu with h1 | h2
          · subst h1
            rw [hul] at hl
            cases hl
          · exact h2
        obtain ⟨e, he⟩ := ih.mpr ⟨u, hut, hul⟩
        rw [he]
        exact ⟨e, rfl⟩

theorem decode_letters_error_val :
    ∀ {toks : List (List Char)} {e : List Char},
      decode_letters toks = .error e →
      e ∈ toks ∧ REVERSE_MORSE_CODE_TABLE.lookup e = none := by
  intro toks
  induction toks with
  | nil =>
    intro e he
    rw [decode_letters] at he
    cases he
  | cons t ts ih =>
    intro e he
    rw [decode_letters] at he
    cases hl : REVERSE_MORSE_CODE_TABLE.lookup t with
    | none =>
      rw [hl] at he
      cases he
      exact ⟨List.mem_cons_self _ _, hl⟩
    | some c =>
      rw [hl] at he
      cases hrec : decode_letters ts with
      | error e' =>
        rw [hrec] at he
        simp only [Except.map] at he
        cases he
        obtain ⟨h1, h2⟩ := ih hrec
        exact ⟨List.mem_cons_of_mem _ h1, h2⟩
      | ok cs =>
        rw [hrec] at he
        cases he

theorem codes_facts {w : List Char}
    (hsup : ∀ c ∈ w, (MORSE_CODE_TABLE.lookup c).isSome) :
    ∀ m ∈ w.map codeOf, m ≠ [] ∧ ∀ x ∈ m, x = '.' ∨ x = '-' := by
  intro m hm
  obtain ⟨c, hc, heq⟩ := List.mem_map.mp hm
  obtain ⟨v, hv⟩ := Option.isSome_iff_exists.mp (hsup c hc)
  have hcv : codeOf c = v := by rw [codeOf, hv]; rfl
  rw [← heq, hcv]
  exact code_facts hv

theorem dotdash_not_space {x : Char} (h : x = '.' ∨ x = '-') :
    pyIsSpace x = false := by
  rcases h with h | h <;> subst h <;> decide

theorem encWord_ne_nil {w : List Char} (hne : w ≠ [])
    (hsup : ∀ c ∈ w, (MORSE_CODE_TABLE.lookup c).isSome) :
    encWord DEFAULT_LETTER_SEPARATOR w ≠ [] := by
  cases w with
  | nil => exact absurd rfl hne
  | cons c t =>
    rw [encWord, List.map_cons]
    exact joinSep_ne_nil
      (codes_facts hsup (codeOf c) (List.mem_map_of_mem _ (List.mem_cons_self _ _))).1

theorem encWord_chars {w : List Char}
    (hsup : ∀ c ∈ w, (MORSE_CODE_TABLE.lookup c).isSome) :
    ∀ x ∈ encWord DEFAULT_LETTER_SEPARATOR w, x = '.' ∨ x = '-' ∨ x = ' ' := by
  intro x hx
  rcases mem_joinSep hx with ⟨m, hm, hxm⟩ | hs
  · rcases (codes_facts hsup m hm).2 x hxm with h | h
    · exact Or.inl h
    · exact Or.inr (Or.inl h)
  · simp only [DEFAULT_LETTER_SEPARATOR, List.mem_singleton] at hs
    exact Or.inr (Or.inr hs)

theorem encWord_strip {w : List Char} (hne : w ≠ [])
    (hsup : ∀ c ∈ w, (MORSE_CODE_TABLE.lookup c).isSome) :
    strip (encWord DEFAULT_LETTER_SEPARATOR w) = encWord DEFAULT_LETTER_SEPARATOR w := by
  apply strip_eq_self
  · intro d hd
    obtain ⟨m, hm, hdm⟩ := head?_joinSep
      (fun m hm => (codes_facts hsup m hm).1) hd
    have hdmem : d ∈ m := by
      cases m with
      | nil => cases hdm
      | cons a t =>
        simp only [List.head?_cons, Option.some.injEq] at hdm
        exact hdm ▸ List.mem_cons_self _ _
    exact dotdash_not_space ((codes_facts hsup m hm).2 d hdmem)
  · intro d hd
    obtain ⟨m, hm, hdm⟩ := getLast?_joinSep
      (fun m hm => (codes_facts hsup m hm).1) hd
    have hdmem : d ∈ m := List.mem_of_getLast?_eq_some hdm
    exact dotdash_not_space ((codes_facts hsup m hm).2 d hdmem)

theorem decode_words_msgs :
    ∀ {nws : List (List Char)}, (∀ w ∈ nws, w ≠ []) →
      (∀ w ∈ nws, ∀ c ∈ w, (MORSE_CODE_TABLE.lookup c).isSome) →
      decode_words DEFAULT_LETTER_SEPARATOR
        (nws.map (encWord DEFAULT_LETTER_SEPARATOR)) = .ok nws := by
  intro nws
  induction nws with
  | nil => intro _ _; rfl
  | cons w rest ih =>
    intro hne hsup
    have hwne : w ≠ [] := hne w (List.mem_cons_self _ _)
    have hwsup : ∀ c ∈ w, (MORSE_CODE_TABLE.lookup c).isSome :=
      hsup w (List.mem_cons_self _ _)
    rw [List.map_cons, decode_words, encWord_strip hwne hwsup,
      if_neg (encWord_ne_nil hwne hwsup)]
    have hsplit : splitOnList DEFAULT_LETTER_SEPARATOR
        (encWord DEFAULT_LETTER_SEPARATOR w) = w.map codeOf := by
      show splitOnList [' '] _ = _
      rw [encWord]
      exact splitOnList_single_joinSep (by simpa using hwne)
        (fun m hm hsp => by
          rcases (codes_facts hwsup m hm).2 ' ' hsp with h | h <;>
            exact absurd h (by decide))
    rw [hsplit]
    have hfilter : (w.map codeOf).filter (fun t => !t.isEmpty) = w.map codeOf := by
      rw [List.filter_eq_self]
      intro m hm
      have := (codes_facts hwsup m hm).1
      simpa [List.isEmpty_iff] using this
    rw [hfilter, decode_letters_codes hwsup,
      ih (fun v hv => hne v (List.mem_cons_of_mem _ hv))
        (fun v hv => hsup v (List.mem_cons_of_mem _ hv))]
    rfl

theorem normalize_supported {t : List Char} (h : ∀ c ∈ t, supportedChar c) :
    ∀ c ∈ normalize_text t, ¬ c = ' ' → (MORSE_CODE_TABLE.lookup c).isSome := by
  intro c hc hcn
  obtain ⟨d, hd, hde⟩ := List.mem_map.mp hc
  by_cases hds : d = ' '
  · exact absurd (by rw [← hde, if_pos hds]; exact hds) hcn
  · rw [← hde, if_neg hds]
    rcases h d hd with h1 | h2
    · exact absurd h1 hds
    · exact h2

/-- Decoding the canonical encoding of a list of words recovers the words. -/
theorem decode_encode_words {nws : List (List Char)}
    (h1 : ∀ w ∈ nws, w ≠ [])
    (h2 : ∀ w ∈ nws, ∀ c ∈ w, (MORSE_CODE_TABLE.lookup c).isSome) :
    decode_from_morse
      (joinSep DEFAULT_WORD_SEPARATOR (nws.map (encWord DEFAULT_LETTER_SEPARATOR)))
      DEFAULT_LETTER_SEPARATOR DEFAULT_WORD_SEPARATOR =
    .ok (joinSep [' '] nws) := by
  cases nws with
  | nil => rfl
  | cons x rest =>
    set msgs : List (List Char) :=
      (x :: rest).map (encWord DEFAULT_LETTER_SEPARATOR) with hmsgs
    have hxne : x ≠ [] := h1 x (List.mem_cons_self _ _)
    have hxsup : ∀ c ∈ x, (MORSE_CODE_TABLE.lookup c).isSome :=
      h2 x (List.mem_cons_self _ _)
    have hm1ne : encWord DEFAULT_LETTER_SEPARATOR x ≠ [] := encWord_ne_nil hxne hxsup
    obtain ⟨d, t, hdt⟩ : ∃ d t, encWord DEFAULT_LETTER_SEPARATOR x = d :: t := by
      cases he : encWord DEFAULT_LETTER_SEPARATOR x with
      | nil => exact absurd he hm1ne
      | cons d t => exact ⟨d, t, rfl⟩
    have hdchar : d = '.' ∨ d = '-' ∨ d = ' ' :=
      encWord_chars hxsup d (hdt ▸ List.mem_cons_self _ _)
    have hdmem : d ∈ joinSep DEFAULT_WORD_SEPARATOR msgs :=
      mem_joinSep_of_mem (List.mem_map_of_mem _ (List.mem_cons_self _ _))
        (hdt ▸ List.mem_cons_self _ _)
    -- the head of the first message is a dot or dash: the leading `x` is
    -- non-empty, so the head of its Morse word is the head of a code
    have hdnd : d = '.' ∨ d = '-' := by
      have hh : (encWord DEFAULT_LETTER_SEPARATOR x).head? = some d := by
        rw [hdt]; rfl
      obtain ⟨m, hm, hdm⟩ := head?_joinSep
        (fun m hm => (codes_facts hxsup m hm).1) (by rw [encWord] at hh; exact hh)
      have hdmm : d ∈ m := by
        cases m with
        | nil => cases hdm
        | cons a s =>
          simp only [List.head?_cons, Option.some.injEq] at hdm
          exact hdm ▸ List.mem_cons_self _ _
      exact (codes_facts hxsup m hm).2 d hdmm
    have hstrip_ne : strip (joinSep DEFAULT_WORD_SEPARATOR msgs) ≠ [] := by
      intro hs
      have := strip_eq_nil_iff.mp hs d hdmem
      rw [dotdash_not_space hdnd] at this
      cases this
    rw [decode_from_morse, if_neg hstrip_ne]
    have hslash : ∀ m ∈ msgs, '/' ∉ m := by
      intro m hm hin
      obtain ⟨w, hw, hwe⟩ := List.mem_map.mp hm
      rcases encWord_chars (h2 w hw) '/' (hwe ▸ hin) with h | h | h <;> cases h
    rw [splitOnList_wsep_joinSep (by simp [hmsgs]) hslash, hmsgs,
      decode_words_msgs h1 h2]
    rfl

/-- Master round-trip lemma: on supported text, encode-then-decode yields
the normalised words joined by single spaces. -/
theorem roundtrip_normal {t : List Char} (h : ∀ c ∈ t, supportedChar c) :
    ∃ m, encode_to_morse t DEFAULT_LETTER_SEPARATOR DEFAULT_WORD_SEPARATOR = .ok m ∧
      decode_from_morse m DEFAULT_LETTER_SEPARATOR DEFAULT_WORD_SEPARATOR =
        .ok (joinSep [' '] (wordsOf (normalize_text t))) := by
  refine ⟨_, encode_to_morse_ok h, ?_⟩
  apply decode_encode_words
  · exact fun w hw => (mem_wordsOf hw).1
  · intro w hw c hc
    obtain ⟨hcm, hcn⟩ := (mem_wordsOf hw).2 c hc
    exact normalize_supported h c hcm hcn

theorem map_joinSep {f : Char → Char} :
    ∀ {ws : List (List Char)} {sep : List Char},
      List.map f (joinSep sep ws) = joinSep (List.map f sep) (ws.map (List.map f)) := by
  intro ws
  induction ws with
  | nil => intro sep; rfl
  | cons w ws ih =>
    intro sep
    cases ws with
    | nil => rfl
    | cons x ws' =>
      calc List.map f (joinSep sep (w :: x :: ws'))
          = List.map f (w ++ sep ++ joinSep sep (x :: ws')) := by
            rw [joinSep_cons _ _ (by simp)]
        _ = List.map f w ++ List.map f sep ++ List.map f (joinSep sep (x :: ws')) := by
            simp [List.map_append]
        _ = List.map f w ++ List.map f sep ++
              joinSep (List.map f sep) (List.map (List.map f) (x :: ws')) := by
            rw [ih]
        _ = joinSep (List.map f sep) (List.map (List.map f) (w :: x :: ws')) := by
            rw [List.map_cons (List.map f) w (x :: ws'), joinSep_cons _ _ (by simp)]

theorem normalize_joinSep_words {ws : List (List Char)} :
    normalize_text (joinSep [' '] ws) =
      joinSep [' '] (ws.map normalize_text) := by
  rw [normalize_text, map_joinSep]
  rfl

/-! ### Claim theorems -/

/-- C1 (counterexample): the round-trip claim fails as stated on the
string `" "`.  It is composed solely of single spaces (a vacuous set of
table characters), yet `decode(encode(" ")) = ""` while
`uppercase(" ") = " "`. -/
theorem C1_roundtrip_counterexample :
    encode_to_morse [' '] DEFAULT_LETTER_SEPARATOR DEFAULT_WORD_SEPARATOR = .ok [] ∧
    decode_from_morse [] DEFAULT_LETTER_SEPARATOR DEFAULT_WORD_SEPARATOR = .ok [] ∧
    normalize_text [' '] = [' '] ∧ ([] : List Char) ≠ [' '] :=
  ⟨rfl, rfl, rfl, by decide⟩

/-- C1 (amended): for every string built as non-empty words of supported
non-space characters joined by single spaces (so no leading, trailing or
doubled spaces), `decode_from_morse (encode_to_morse s)` with default
separators succeeds and equals the uppercased string. -/
theorem C1_roundtrip_amended {ws : List (List Char)}
    (hne : ∀ w ∈ ws, w ≠ [])
    (hsup : ∀ w ∈ ws, ∀ c ∈ w, ¬ c = ' ' ∧ (MORSE_CODE_TABLE.lookup c.toUpper).isSome) :
    ∃ m, encode_to_morse (joinSep [' '] ws)
        DEFAULT_LETTER_SEPARATOR DEFAULT_WORD_SEPARATOR = .ok m ∧
      decode_from_morse m DEFAULT_LETTER_SEPARATOR DEFAULT_WORD_SEPARATOR =
        .ok (normalize_text (joinSep [' '] ws)) := by
  have hs : ∀ c ∈ joinSep [' '] ws, supportedChar c := by
    intro c hc
    rcases mem_joinSep hc with ⟨w, hw, hcw⟩ | hsep
    · exact Or.inr (hsup w hw c hcw).2
    · simp only [List.mem_singleton] at hsep
      exact Or.inl hsep
  obtain ⟨m, hm, hd⟩ := roundtrip_normal hs
  refine ⟨m, hm, ?_⟩
  rw [hd, normalize_joinSep_words]
  have hws : wordsOf (joinSep [' '] (ws.map normalize_text)) = ws.map normalize_text := by
    apply wordsOf_joinSep
    · intro w hw
      obtain ⟨v, hv, hve⟩ := List.mem_map.mp hw
      rw [← hve]
      simpa [normalize_text] using hne v hv
    · intro w hw c hc
      obtain ⟨v, hv, hve⟩ := List.mem_map.mp hw
      rw [← hve] at hc
      obtain ⟨d, hd', hde⟩ := List.mem_map.mp hc
      obtain ⟨hdn, hdsup⟩ := hsup v hv d hd'
      rw [← hde, if_neg hdn]
      exact (key_of_lookup_isSome hdsup).2
  rw [hws]

/-- C1 (witness): the amended round trip at the concrete input "ab cd". -/
theorem C1_roundtrip_amended_witness :
    (∀ w ∈ [['a', 'b'], ['c', 'd']], w ≠ []) ∧
    (∀ w ∈ [['a', 'b'], ['c', 'd']], ∀ c ∈ w,
      ¬ c = ' ' ∧ (MORSE_CODE_TABLE.lookup c.toUpper).isSome) ∧
    (∃ m, encode_to_morse (joinSep [' '] [['a', 'b'], ['c', 'd']])
        DEFAULT_LETTER_SEPARATOR DEFAULT_WORD_SEPARATOR = .ok m ∧
      decode_from_morse m DEFAULT_LETTER_SEPARATOR DEFAULT_WORD_SEPARATOR =
        .ok (normalize_text (joinSep [' '] [['a', 'b'], ['c', 'd']]))) :=
  ⟨by decide, by decide, C1_roundtrip_amended (by decide) (by decide)⟩

/-- C2: the forward table is injective, and the derived reverse table
sends each code back to its unique symbol. -/
theorem C2_reverse_table_well_defined :
    (∀ p ∈ MORSE_CODE_TABLE, ∀ q ∈ MORSE_CODE_TABLE, p.2 = q.2 → p.1 = q.1) ∧
    (∀ p ∈ MORSE_CODE_TABLE, REVERSE_MORSE_CODE_TABLE.lookup p.2 = some p.1) :=
  ⟨table_injective, table_reverse_lookup⟩

/-- C2 (witness): instantiated at the entry for 'A'. -/
theorem C2_reverse_table_well_defined_witness :
    (('A', ['.', '-']) ∈ MORSE_CODE_TABLE) ∧
    REVERSE_MORSE_CODE_TABLE.lookup ['.', '-'] = some 'A' :=
  ⟨by decide, C2_reverse_table_well_defined.2 ('A', ['.', '-']) (by decide)⟩

/-- C7: on supported text containing a run of two or more consecutive
spaces, the full round trip returns the words of the uppercased text
joined by exactly one space each. -/
theorem C7_multispace_collapse {t : List Char}
    (hsup : ∀ c ∈ t, supportedChar c)
    (hdouble : ∃ a b, t = a ++ ' ' :: ' ' :: b) :
    ∃ m, encode_to_morse t DEFAULT_LETTER_SEPARATOR DEFAULT_WORD_SEPARATOR = .ok m ∧
      decode_from_morse m DEFAULT_LETTER_SEPARATOR DEFAULT_WORD_SEPARATOR =
        .ok (joinSep [' '] (wordsOf (normalize_text t))) :=
  roundtrip_normal hsup

/-- C7 (witness): the round trip at "a  b" collapses the double space:
the result is "A B". -/
theorem C7_multispace_collapse_witness :
    (∀ c ∈ ['a', ' ', ' ', 'b'], supportedChar c) ∧
    (∃ a b, ['a', ' ', ' ', 'b'] = a ++ ' ' :: ' ' :: b) ∧
    (∃ m, encode_to_morse ['a', ' ', ' ', 'b']
        DEFAULT_LETTER_SEPARATOR DEFAULT_WORD_SEPARATOR = .ok m ∧
      decode_from_morse m DEFAULT_LETTER_SEPARATOR DEFAULT_WORD_SEPARATOR =
        .ok (joinSep [' '] (wordsOf (normalize_text ['a', ' ', ' ', 'b'])))) :=
  ⟨by decide, ⟨['a'], ['b'], rfl⟩,
    C7_multispace_collapse (by decide) ⟨['a'], ['b'], rfl⟩⟩

/-- C3: `encode_to_morse` fails if and only if the input has a non-space
character whose uppercasing is outside the table, and the reported error
value is the uppercased offending character.  (Failure is total by
construction: an `Except.error` result carries no partial output.) -/
theorem C3_encode_unsupported_error {text lsep wsep : List Char} :
    ((∃ e, encode_to_morse text lsep wsep = .error e) ↔
      ∃ c ∈ text, ¬ c = ' ' ∧ MORSE_CODE_TABLE.lookup c.toUpper = none) ∧
    (∀ e, encode_to_morse text lsep wsep = .error e →
      ∃ c ∈ text, ¬ c = ' ' ∧ e = c.toUpper ∧ MORSE_CODE_TABLE.lookup e = none) :=
  ⟨encode_error_iff, fun _ he => encode_error_value he⟩

/-- C3 (witness): the control character `'\x01'` makes encoding fail and
is reported back. -/
theorem C3_encode_unsupported_error_witness :
    (∃ c ∈ ['\x01'], ¬ c = ' ' ∧ MORSE_CODE_TABLE.lookup c.toUpper = none) ∧
    (∃ e, encode_to_morse ['\x01']
      DEFAULT_LETTER_SEPARATOR DEFAULT_WORD_SEPARATOR = .error e) ∧
    (∃ c ∈ ['\x01'], ¬ c = ' ' ∧ '\x01' = c.toUpper ∧
      MORSE_CODE_TABLE.lookup '\x01' = none) :=
  ⟨by decide,
    (@C3_encode_unsupported_error ['\x01']
      DEFAULT_LETTER_SEPARATOR DEFAULT_WORD_SEPARATOR).1.mpr (by decide),
    (@C3_encode_unsupported_error ['\x01']
      DEFAULT_LETTER_SEPARATOR DEFAULT_WORD_SEPARATOR).2 '\x01' (by rfl)⟩

/-- C5: on empty or whitespace-only input, `decode_from_morse` returns
the empty string without error, for any separators; in particular on `""`
and on `"   "`. -/
theorem C5_decode_whitespace_empty :
    (∀ (m lsep wsep : List Char), (∀ c ∈ m, pyIsSpace c = true) →
      decode_from_morse m lsep wsep = .ok []) ∧
    decode_from_morse [] DEFAULT_LETTER_SEPARATOR DEFAULT_WORD_SEPARATOR = .ok [] ∧
    decode_from_morse [' ', ' ', ' ']
      DEFAULT_LETTER_SEPARATOR DEFAULT_WORD_SEPARATOR = .ok [] := by
  refine ⟨?_, rfl, rfl⟩
  intro m lsep wsep h
  rw [decode_from_morse, if_pos (strip_eq_nil_iff.mpr h)]

/-- C5 (witness): the universally quantified part applied to `"   "`. -/
theorem C5_decode_whitespace_empty_witness :
    (∀ c ∈ [' ', ' ', ' '], pyIsSpace c = true) ∧
    decode_from_morse [' ', ' ', ' ']
      DEFAULT_LETTER_SEPARATOR DEFAULT_WORD_SEPARATOR = .ok [] :=
  ⟨by decide,
    C5_decode_whitespace_empty.1 [' ', ' ', ' ']
      DEFAULT_LETTER_SEPARATOR DEFAULT_WORD_SEPARATOR (by decide)⟩

/-- C8: on supported input, every character of the default-separator
encoding is a dot, a dash, a space or a slash. -/
theorem C8_output_alphabet {s m : List Char}
    (hsup : ∀ c ∈ s, supportedChar c)
    (he : encode_to_morse s DEFAULT_LETTER_SEPARATOR DEFAULT_WORD_SEPARATOR = .ok m) :
    ∀ c ∈ m, morseOutputChar c := by
  rw [encode_to_morse_ok hsup] at he
  have hm : m = joinSep DEFAULT_WORD_SEPARATOR
      ((wordsOf (normalize_text s)).map (encWord DEFAULT_LETTER_SEPARATOR)) :=
    (Except.ok.inj he).symm
  subst hm
  intro c hc
  rcases mem_joinSep hc with ⟨msg, hmsg, hcm⟩ | hsep
  · obtain ⟨w, hw, hwe⟩ := List.mem_map.mp hmsg
    have hwsup : ∀ d ∈ w, (MORSE_CODE_TABLE.lookup d).isSome := by
      intro d hd
      obtain ⟨hdm, hdn⟩ := (mem_wordsOf hw).2 d hd
      exact normalize_supported hsup d hdm hdn
    rcases encWord_chars hwsup c (hwe ▸ hcm) with h | h | h
    · exact Or.inl h
    · exact Or.inr (Or.inl h)
    · exact Or.inr (Or.inr (Or.inl h))
  · simp only [DEFAULT_WORD_SEPARATOR, List.mem_cons, List.not_mem_nil, or_false] at hsep
    rcases hsep with h | h | h
    · exact Or.inr (Or.inr (Or.inl h))
    · exact Or.inr (Or.inr (Or.inr h))
    · exact Or.inr (Or.inr (Or.inl h))

/-- C8 (witness): instantiated on "hi", whose encoding is ".... ..". -/
theorem C8_output_alphabet_witness :
    (∀ c ∈ ['h', 'i'], supportedChar c) ∧
    (encode_to_morse ['h', 'i'] DEFAULT_LETTER_SEPARATOR DEFAULT_WORD_SEPARATOR =
      .ok ['.', '.', '.', '.', ' ', '.', '.']) ∧
    ∀ c ∈ ['.', '.', '.', '.', ' ', '.', '.'], morseOutputChar c :=
  ⟨by decide, by rfl,
    @C8_output_alphabet ['h', 'i'] ['.', '.', '.', '.', ' ', '.', '.']
      (by decide) (by rfl)⟩

theorem normalize_eq_self {u : List Char}
    (h : ∀ c ∈ u, c = ' ' ∨ c.toUpper = c) : normalize_text u = u := by
  induction u with
  | nil => rfl
  | cons c t ih =>
    rw [normalize_text, List.map_cons]
    have ht : normalize_text t = t := ih (fun d hd => h d (List.mem_cons_of_mem _ hd))
    rw [normalize_text] at ht
    rw [ht]
    by_cases hc : c = ' '
    · rw [if_pos hc]
    · rw [if_neg hc]
      rcases h c (List.mem_cons_self _ _) with h1 | h2
      · exact absurd h1 hc
      · rw [h2]

/-- C10: on supported input, encoding is a left inverse of decoding on
the image of encoding: `encode (decode (encode s)) = encode s`. -/
theorem C10_encode_decode_encode {s : List Char}
    (h : ∀ c ∈ s, supportedChar c) :
    ∃ m u, encode_to_morse s DEFAULT_LETTER_SEPARATOR DEFAULT_WORD_SEPARATOR = .ok m ∧
      decode_from_morse m DEFAULT_LETTER_SEPARATOR DEFAULT_WORD_SEPARATOR = .ok u ∧
      encode_to_morse u DEFAULT_LETTER_SEPARATOR DEFAULT_WORD_SEPARATOR = .ok m := by
  obtain ⟨m, hm, hd⟩ := roundtrip_normal h
  refine ⟨m, _, hm, hd, ?_⟩
  have hfacts : ∀ w ∈ wordsOf (normalize_text s),
      w ≠ [] ∧ ∀ c ∈ w, (MORSE_CODE_TABLE.lookup c).isSome ∧ ¬ c = ' ' := by
    intro w hw
    refine ⟨(mem_wordsOf hw).1, fun c hc => ?_⟩
    obtain ⟨hcm, hcn⟩ := (mem_wordsOf hw).2 c hc
    exact ⟨normalize_supported h c hcm hcn, hcn⟩
  have hu_sup : ∀ c ∈ joinSep [' '] (wordsOf (normalize_text s)), supportedChar c := by
    intro c hc
    rcases mem_joinSep hc with ⟨w, hw, hcw⟩ | hsep
    · have hi := ((hfacts w hw).2 c hcw).1
      exact Or.inr ((key_of_lookup_isSome hi).1.symm ▸ hi)
    · simp only [List.mem_singleton] at hsep
      exact Or.inl hsep
  rw [encode_to_morse_ok hu_sup]
  have hfix : normalize_text (joinSep [' '] (wordsOf (normalize_text s))) =
      joinSep [' '] (wordsOf (normalize_text s)) := by
    apply normalize_eq_self
    intro c hc
    rcases mem_joinSep hc with ⟨w, hw, hcw⟩ | hsep
    · exact Or.inr (key_of_lookup_isSome ((hfacts w hw).2 c hcw).1).1
    · simp only [List.mem_singleton] at hsep
      exact Or.inl hsep
  rw [hfix, wordsOf_joinSep (fun w hw => (hfacts w hw).1)
    (fun w hw c hc => ((hfacts w hw).2 c hc).2)]
  rw [encode_to_morse_ok h] at hm
  exact hm.symm ▸ rfl

/-- C10 (witness): instantiated on "sos". -/
theorem C10_encode_decode_encode_witness :
    (∀ c ∈ ['s', 'o', 's'], supportedChar c) ∧
    (∃ m u, encode_to_morse ['s', 'o', 's']
        DEFAULT_LETTER_SEPARATOR DEFAULT_WORD_SEPARATOR = .ok m ∧
      decode_from_morse m DEFAULT_LETTER_SEPARATOR DEFAULT_WORD_SEPARATOR = .ok u ∧
      encode_to_morse u DEFAULT_LETTER_SEPARATOR DEFAULT_WORD_SEPARATOR = .ok m) :=
  ⟨by decide, C10_encode_decode_encode (by decide)⟩

/-! ### C6: boundary spaces never produce separators -/

theorem encode_go_trailing {lsep : List Char} :
    ∀ {t : List Char} (words cur : List (List Char)),
      encode_go lsep (t ++ [' ']) words cur = encode_go lsep t words cur := by
  intro t
  induction t with
  | nil =>
    intro words cur
    cases cur <;> rfl
  | cons c t' ih =>
    intro words cur
    rw [List.cons_append, encode_go, encode_go]
    by_cases hc : c = ' '
    · rw [if_pos hc, if_pos hc]
      by_cases hcur : cur.isEmpty
      · rw [if_pos hcur, if_pos hcur, ih]
      · rw [if_neg hcur, if_neg hcur, ih]
    · rw [if_neg hc, if_neg hc]
      cases hl : MORSE_CODE_TABLE.lookup c with
      | some code =>
        show encode_go lsep (t' ++ [' ']) words (cur ++ [code]) =
          encode_go lsep t' words (cur ++ [code])
        exact ih _ _
      | none => rfl

theorem startsWith_head {l : List Char} {b : Char} {p : List Char}
    (h : startsWith l (b :: p) = true) : l.head? = some b := by
  cases l with
  | nil => cases h
  | cons a t =>
    simp only [startsWith, Bool.and_eq_true, decide_eq_true_eq] at h
    rw [h.1]
    rfl

theorem encWord_head_dotdash {w : List Char}
    (hsup : ∀ c ∈ w, (MORSE_CODE_TABLE.lookup c).isSome) {d : Char}
    (hh : (encWord DEFAULT_LETTER_SEPARATOR w).head? = some d) :
    d = '.' ∨ d = '-' := by
  rw [encWord] at hh
  obtain ⟨m, hm, hdm⟩ := head?_joinSep (fun m hm => (codes_facts hsup m hm).1) hh
  have hdmem : d ∈ m := by
    cases m with
    | nil => cases hdm
    | cons a s =>
      simp only [List.head?_cons, Option.some.injEq] at hdm
      exact hdm ▸ List.mem_cons_self _ _
  exact (codes_facts hsup m hm).2 d hdmem

theorem encWord_last_dotdash {w : List Char}
    (hsup : ∀ c ∈ w, (MORSE_CODE_TABLE.lookup c).isSome) {d : Char}
    (hh : (encWord DEFAULT_LETTER_SEPARATOR w).getLast? = some d) :
    d = '.' ∨ d = '-' := by
  rw [encWord] at hh
  obtain ⟨m, hm, hdm⟩ := getLast?_joinSep (fun m hm => (codes_facts hsup m hm).1) hh
  exact (codes_facts hsup m hm).2 d (List.mem_of_getLast?_eq_some hdm)

theorem encode_ok_supported {t m : List Char} {lsep wsep : List Char}
    (he : encode_to_morse t lsep wsep = .ok m) : ∀ c ∈ t, supportedChar c := by
  intro c hc
  by_cases hcs : c = ' '
  · exact Or.inl hcs
  · cases hl : MORSE_CODE_TABLE.lookup c.toUpper with
    | some v => exact Or.inr (by rw [hl]; rfl)
    | none =>
      obtain ⟨e, he'⟩ := encode_error_iff.mpr ⟨c, hc, hcs, hl⟩
      rw [he] at he'
      cases he'

/-- C6: `encode("")` is empty, leading and trailing spaces never change
the result, and a successful default-separator encoding neither begins
nor ends with the word separator. -/
theorem C6_no_spurious_separators :
    (encode_to_morse [] DEFAULT_LETTER_SEPARATOR DEFAULT_WORD_SEPARATOR = .ok []) ∧
    (∀ (t lsep wsep : List Char),
      encode_to_morse (' ' :: t) lsep wsep = encode_to_morse t lsep wsep ∧
      encode_to_morse (t ++ [' ']) lsep wsep = encode_to_morse t lsep wsep) ∧
    (∀ (t m : List Char),
      encode_to_morse t DEFAULT_LETTER_SEPARATOR DEFAULT_WORD_SEPARATOR = .ok m →
      startsWith m DEFAULT_WORD_SEPARATOR = false ∧
      startsWith m.reverse DEFAULT_WORD_SEPARATOR.reverse = false) := by
  refine ⟨rfl, ?_, ?_⟩
  · intro t lsep wsep
    constructor
    · rfl
    · rw [encode_to_morse, encode_to_morse]
      have hn : normalize_text (t ++ [' ']) = normalize_text t ++ [' '] := by
        rw [normalize_text, normalize_text, List.map_append]
        rfl
      rw [hn, encode_go_trailing]
  · intro t m he
    have hsup := encode_ok_supported he
    rw [encode_to_morse_ok hsup] at he
    have hm : m = joinSep DEFAULT_WORD_SEPARATOR
        ((wordsOf (normalize_text t)).map (encWord DEFAULT_LETTER_SEPARATOR)) :=
      (Except.ok.inj he).symm
    have hmsgne : ∀ msg ∈ (wordsOf (normalize_text t)).map
        (encWord DEFAULT_LETTER_SEPARATOR), msg ≠ [] := by
      intro msg hmsg
      obtain ⟨w, hw, hwe⟩ := List.mem_map.mp hmsg
      rw [← hwe]
      exact encWord_ne_nil (mem_wordsOf hw).1
        (fun d hd => normalize_supported hsup d ((mem_wordsOf hw).2 d hd).1
          ((mem_wordsOf hw).2 d hd).2)
    constructor
    · cases hsw : startsWith m DEFAULT_WORD_SEPARATOR with
      | false => rfl
      | true =>
        exfalso
        have hh : m.head? = some ' ' := startsWith_head hsw
        rw [hm] at hh
        obtain ⟨msg, hmsg, hdm⟩ := head?_joinSep hmsgne hh
        obtain ⟨w, hw, hwe⟩ := List.mem_map.mp hmsg
        have := encWord_head_dotdash
          (fun d hd => normalize_supported hsup d ((mem_wordsOf hw).2 d hd).1
            ((mem_wordsOf hw).2 d hd).2) (hwe ▸ hdm)
        rcases this with h | h <;> cases h
    · cases hsw : startsWith m.reverse DEFAULT_WORD_SEPARATOR.reverse with
      | false => rfl
      | true =>
        exfalso
        have hh : m.reverse.head? = some ' ' := startsWith_head hsw
        rw [List.head?_reverse] at hh
        rw [hm] at hh
        obtain ⟨msg, hmsg, hdm⟩ := getLast?_joinSep hmsgne hh
        obtain ⟨w, hw, hwe⟩ := List.mem_map.mp hmsg
        have := encWord_last_dotdash
          (fun d hd => normalize_supported hsup d ((mem_wordsOf hw).2 d hd).1
            ((mem_wordsOf hw).2 d hd).2) (hwe ▸ hdm)
        rcases this with h | h <;> cases h

/-- C6 (witness): the space-invariance and boundary parts at "a b". -/
theorem C6_no_spurious_separators_witness :
    (encode_to_morse (' ' :: ['a', ' ', 'b'])
        DEFAULT_LETTER_SEPARATOR DEFAULT_WORD_SEPARATOR =
      encode_to_morse ['a', ' ', 'b']
        DEFAULT_LETTER_SEPARATOR DEFAULT_WORD_SEPARATOR) ∧
    (encode_to_morse ['a', ' ', 'b']
        DEFAULT_LETTER_SEPARATOR DEFAULT_WORD_SEPARATOR =
      .ok ['.', '-', ' ', '/', ' ', '-', '.', '.', '.']) ∧
    startsWith ['.', '-', ' ', '/', ' ', '-', '.', '.', '.']
      DEFAULT_WORD_SEPARATOR = false ∧
    startsWith ['.', '-', ' ', '/', ' ', '-', '.', '.', '.'].reverse
      DEFAULT_WORD_SEPARATOR.reverse = false :=
  ⟨(C6_no_spurious_separators.2.1 ['a', ' ', 'b']
      DEFAULT_LETTER_SEPARATOR DEFAULT_WORD_SEPARATOR).1,
    by rfl,
    (C6_no_spurious_separators.2.2 ['a', ' ', 'b']
      ['.', '-', ' ', '/', ' ', '-', '.', '.', '.'] (by rfl)).1,
    (C6_no_spurious_separators.2.2 ['a', ' ', 'b']
      ['.', '-', ' ', '/', ' ', '-', '.', '.', '.'] (by rfl)).2⟩

/-! ### C9: shape of successful decode output -/

theorem tokens_ne_nil {raw : List Char} (hs : strip raw ≠ []) :
    (splitOnList DEFAULT_LETTER_SEPARATOR (strip raw)).filter
      (fun t => !t.isEmpty) ≠ [] := by
  cases hsr : strip raw with
  | nil => exact absurd hsr hs
  | cons d t =>
    have hd : pyIsSpace d = false := strip_head_not (by rw [hsr]; rfl)
    have hdne : ¬ d = ' ' := by
      intro he
      rw [he] at hd
      cases hd
    show (splitOnList [' '] (d :: t)).filter (fun t => !t.isEmpty) ≠ []
    rw [splitOnList_neg (fun hc => hdne (startsWith_single.mp hc.2))]
    cases hsp : splitOnList [' '] t with
    | nil => exact absurd hsp (splitOnList_ne_nil _ _)
    | cons w ws =>
      rw [List.filter_cons_of_pos (by simp)]
      simp

theorem decode_words_inv :
    ∀ {chunks ws : List (List Char)},
      decode_words DEFAULT_LETTER_SEPARATOR chunks = .ok ws →
      ∀ w ∈ ws, w ≠ [] ∧ ∀ c ∈ w,
        (MORSE_CODE_TABLE.lookup c).isSome ∧ c.isLower = false ∧ c ≠ ' ' := by
  intro chunks
  induction chunks with
  | nil =>
    intro ws h
    rw [decode_words] at h
    cases h
    intro w hw
    cases hw
  | cons raw rest ih =>
    intro ws h
    rw [decode_words] at h
    by_cases hs : strip raw = []
    · rw [if_pos hs] at h
      exact ih h
    · rw [if_neg hs] at h
      cases hdl : decode_letters ((splitOnList DEFAULT_LETTER_SEPARATOR
          (strip raw)).filter (fun t => !t.isEmpty)) with
      | error e => rw [hdl] at h; cases h
      | ok cs =>
        rw [hdl] at h
        cases hrec : decode_words DEFAULT_LETTER_SEPARATOR rest with
        | error e => rw [hrec] at h; cases h
        | ok ws' =>
          rw [hrec] at h
          simp only [Except.map, Except.ok.injEq] at h
          subst h
          obtain ⟨hlen, hfacts⟩ := decode_letters_ok_facts hdl
          intro w hw
          rcases List.mem_cons.mp hw with h1 | h2
          · subst h1
            constructor
            · intro hwnil
              rw [hwnil] at hlen
              exact tokens_ne_nil hs (List.eq_nil_of_length_eq_zero hlen.symm)
            · exact hfacts
          · exact ih hrec w h2

theorem joinSep_head_mem {sep : List Char} {x : List Char} (ws : List (List Char))
    (hx : x ≠ []) :
    ∃ d jt, joinSep sep (x :: ws) = d :: jt ∧ d ∈ x := by
  cases x with
  | nil => exact absurd rfl hx
  | cons d xt =>
    cases ws with
    | nil => exact ⟨d, xt, rfl, List.mem_cons_self _ _⟩
    | cons y ys =>
      refine ⟨d, xt ++ sep ++ joinSep sep (y :: ys), ?_, List.mem_cons_self _ _⟩
      rw [joinSep_cons _ _ (by simp)]
      simp

theorem hasDoubleSpace_append_nospace :
    ∀ {w : List Char} (l : List Char), (∀ c ∈ w, ¬ c = ' ') →
      hasDoubleSpace (w ++ l) = hasDoubleSpace l := by
  intro w
  induction w with
  | nil => intro l _; rfl
  | cons c w' ih =>
    intro l hns
    have hc : ¬ c = ' ' := hns c (List.mem_cons_self _ _)
    cases hwl : w' ++ l with
    | nil =>
      obtain ⟨hw', hl⟩ := List.append_eq_nil.mp hwl
      subst hl
      subst hw'
      rfl
    | cons b tl =>
      have h1 : hasDoubleSpace ((c :: w') ++ l) =
          ((c = ' ' && b = ' ') || hasDoubleSpace (b :: tl)) := by
        show hasDoubleSpace (c :: (w' ++ l)) = _
        rw [hwl]
        rfl
      rw [h1, decide_eq_false hc, Bool.false_and, Bool.false_or, ← hwl,
        ih l (fun d hd => hns d (List.mem_cons_of_mem _ hd))]

theorem noDoubleSpace_joinSep :
    ∀ {ws : List (List Char)}, (∀ w ∈ ws, w ≠ []) →
      (∀ w ∈ ws, ∀ c ∈ w, ¬ c = ' ') →
      hasDoubleSpace (joinSep [' '] ws) = false := by
  intro ws
  induction ws with
  | nil => intro _ _; rfl
  | cons w ws' ih =>
    intro hne hns
    cases ws' with
    | nil =>
      show hasDoubleSpace (joinSep [' '] [w]) = false
      have : joinSep [' '] [w] = w ++ [] := by simp [joinSep]
      rw [this, hasDoubleSpace_append_nospace [] (hns w (List.mem_cons_self _ _))]
      rfl
    | cons x ws'' =>
      rw [joinSep_cons _ _ (by simp), List.append_assoc, List.singleton_append,
        hasDoubleSpace_append_nospace _ (hns w (List.mem_cons_self _ _))]
      obtain ⟨d, jt, hj, hdx⟩ := joinSep_head_mem ws''
        (hne x (List.mem_cons_of_mem _ (List.mem_cons_self _ _)))
      have hd : ¬ d = ' ' :=
        hns x (List.mem_cons_of_mem _ (List.mem_cons_self _ _)) d hdx
      have h2 : hasDoubleSpace (' ' :: joinSep [' '] (x :: ws'')) =
          ((' ' = ' ' && d = ' ') || hasDoubleSpace (d :: jt)) := by
        rw [hj]
        rfl
      rw [h2, decide_eq_false hd, Bool.and_false, Bool.false_or, ← hj,
        ih (fun v hv => hne v (List.mem_cons_of_mem _ hv))
          (fun v hv => hns v (List.mem_cons_of_mem _ hv))]

/-- C9: whenever `decode_from_morse` (default separators) succeeds, every
character of the result is a forward-table key or a space, the result has
no lowercase letters, and it has no leading, trailing or doubled
spaces. -/
theorem C9_decode_output_invariant {m r : List Char}
    (h : decode_from_morse m DEFAULT_LETTER_SEPARATOR DEFAULT_WORD_SEPARATOR = .ok r) :
    (∀ c ∈ r, (MORSE_CODE_TABLE.lookup c).isSome ∨ c = ' ') ∧
    (∀ c ∈ r, c.isLower = false) ∧
    r.head? ≠ some ' ' ∧ r.getLast? ≠ some ' ' ∧ hasDoubleSpace r = false := by
  rw [decode_from_morse] at h
  by_cases hs : strip m = []
  · rw [if_pos hs] at h
    cases h
    refine ⟨fun c hc => absurd hc (List.not_mem_nil c),
      fun c hc => absurd hc (List.not_mem_nil c), ?_, ?_, rfl⟩
    · intro hh; cases hh
    · intro hh; cases hh
  · rw [if_neg hs] at h
    cases hdw : decode_words DEFAULT_LETTER_SEPARATOR
        (splitOnList DEFAULT_WORD_SEPARATOR m) with
    | error e => rw [hdw] at h; cases h
    | ok ws =>
      rw [hdw] at h
      simp only [Except.map, Except.ok.injEq] at h
      subst h
      have hfacts := decode_words_inv hdw
      have hne : ∀ w ∈ ws, w ≠ [] := fun w hw => (hfacts w hw).1
      have hns : ∀ w ∈ ws, ∀ c ∈ w, ¬ c = ' ' :=
        fun w hw c hc => ((hfacts w hw).2 c hc).2.2
      refine ⟨?_, ?_, ?_, ?_, noDoubleSpace_joinSep hne hns⟩
      · intro c hc
        rcases mem_joinSep hc with ⟨w, hw, hcw⟩ | hsep
        · exact Or.inl ((hfacts w hw).2 c hcw).1
        · simp only [List.mem_singleton] at hsep
          exact Or.inr hsep
      · intro c hc
        rcases mem_joinSep hc with ⟨w, hw, hcw⟩ | hsep
        · exact ((hfacts w hw).2 c hcw).2.1
        · simp only [List.mem_singleton] at hsep
          subst hsep
          rfl
      · intro hh
        obtain ⟨w, hw, hwh⟩ := head?_joinSep hne hh
        have : ' ' ∈ w := by
          cases w with
          | nil => cases hwh
          | cons a t =>
            simp only [List.head?_cons, Option.some.injEq] at hwh
            exact hwh ▸ List.mem_cons_self _ _
        exact hns w hw ' ' this rfl
      · intro hh
        obtain ⟨w, hw, hwh⟩ := getLast?_joinSep hne hh
        exact hns w hw ' ' (List.mem_of_getLast?_eq_some hwh) rfl

/-- C9 (witness): decoding ".... .." yields "HI", which satisfies every
part of the invariant. -/
theorem C9_decode_output_invariant_witness :
    (decode_from_morse ['.', '.', '.', '.', ' ', '.', '.']
      DEFAULT_LETTER_SEPARATOR DEFAULT_WORD_SEPARATOR = .ok ['H', 'I']) ∧
    ((∀ c ∈ ['H', 'I'], (MORSE_CODE_TABLE.lookup c).isSome ∨ c = ' ') ∧
    (∀ c ∈ ['H', 'I'], c.isLower = false) ∧
    (['H', 'I'] : List Char).head? ≠ some ' ' ∧
    (['H', 'I'] : List Char).getLast? ≠ some ' ' ∧
    hasDoubleSpace ['H', 'I'] = false) :=
  ⟨by rfl,
    @C9_decode_output_invariant ['.', '.', '.', '.', ' ', '.', '.'] ['H', 'I'] (by rfl)⟩

/-! ### C4: decode failure characterisation -/

theorem filter_tokens_nil {lsep : List Char} :
    ((splitOnList lsep ([] : List Char)).filter (fun t => !t.isEmpty)) = [] := by
  rw [splitOnList_nil]
  rfl

theorem decode_words_error_iff {lsep : List Char} :
    ∀ {chunks : List (List Char)},
      (∃ e, decode_words lsep chunks = .error e) ↔
        ∃ ch ∈ chunks, ∃ tok ∈ (splitOnList lsep (strip ch)).filter
          (fun t => !t.isEmpty), REVERSE_MORSE_CODE_TABLE.lookup tok = none := by
  intro chunks
  induction chunks with
  | nil =>
    constructor
    · rintro ⟨e, he⟩
      rw [decode_words] at he
      cases he
    · rintro ⟨ch, hch, _⟩
      cases hch
  | cons raw rest ih =>
    constructor
    · rintro ⟨e, he⟩
      rw [decode_words] at he
      by_cases hs : strip raw = []
      · rw [if_pos hs] at he
        obtain ⟨ch, hch, tok, htok, hnone⟩ := ih.mp ⟨e, he⟩
        exact ⟨ch, List.mem_cons_of_mem _ hch, tok, htok, hnone⟩
      · rw [if_neg hs] at he
        cases hdl : decode_letters ((splitOnList lsep (strip raw)).filter
            (fun t => !t.isEmpty)) with
        | error e' =>
          obtain ⟨tok, htok, hnone⟩ := decode_letters_error_iff.mp ⟨e', hdl⟩
          exact ⟨raw, List.mem_cons_self _ _, tok, htok, hnone⟩
        | ok cs =>
          rw [hdl] at he
          cases hrec : decode_words lsep rest with
          | error e' =>
            obtain ⟨ch, hch, tok, htok, hnone⟩ := ih.mp ⟨e', hrec⟩
            exact ⟨ch, List.mem_cons_of_mem _ hch, tok, htok, hnone⟩
          | ok ws =>
            rw [hrec] at he
            cases he
    · rintro ⟨ch, hch, tok, htok, hnone⟩
      rw [decode_words]
      rcases List.mem_cons.mp hch with h1 | h2
      · subst h1
        by_cases hs : strip ch = []
        · rw [hs, filter_tokens_nil] at htok
          cases htok
        · rw [if_neg hs]
          obtain ⟨e, he⟩ := decode_letters_error_iff.mpr ⟨tok, htok, hnone⟩
          rw [he]
          exact ⟨e, rfl⟩
      · obtain ⟨e, he⟩ := ih.mpr ⟨ch, h2, tok, htok, hnone⟩
        by_cases hs : strip raw = []
        · rw [if_pos hs]
          exact ⟨e, he⟩
        · rw [if_neg hs]
          cases hdl : decode_letters ((splitOnList lsep (strip raw)).filter
              (fun t => !t.isEmpty)) with
          | error e' => exact ⟨e', rfl⟩
          | ok cs =>
            rw [he]
            exact ⟨e, rfl⟩

theorem decode_words_error_val {lsep : List Char} :
    ∀ {chunks : List (List Char)} {e : List Char},
      decode_words lsep chunks = .error e →
      e ≠ [] ∧ REVERSE_MORSE_CODE_TABLE.lookup e = none ∧
        ∃ ch ∈ chunks, e ∈ splitOnList lsep (strip ch) := by
  intro chunks
  induction chunks with
  | nil =>
    intro e he
    rw [decode_words] at he
    cases he
  | cons raw rest ih =>
    intro e he
    rw [decode_words] at he
    by_cases hs : strip raw = []
    · rw [if_pos hs] at he
      obtain ⟨h1, h2, ch, hch, h3⟩ := ih he
      exact ⟨h1, h2, ch, List.mem_cons_of_mem _ hch, h3⟩
    · rw [if_neg hs] at he
      cases hdl : decode_letters ((splitOnList lsep (strip raw)).filter
          (fun t => !t.isEmpty)) with
      | error e' =>
        rw [hdl] at he
        cases he
        obtain ⟨hmem, hnone⟩ := decode_letters_error_val hdl
        obtain ⟨hmem', hpe⟩ := List.mem_filter.mp hmem
        refine ⟨?_, hnone, raw, List.mem_cons_self _ _, hmem'⟩
        intro hnil
        rw [hnil] at hpe
        cases hpe
      | ok cs =>
        rw [hdl] at he
        cases hrec : decode_words lsep rest with
        | error e' =>
          rw [hrec] at he
          simp only [Except.map] at he
          cases he
          obtain ⟨h1, h2, ch, hch, h3⟩ := ih hrec
          exact ⟨h1, h2, ch, List.mem_cons_of_mem _ hch, h3⟩
        | ok ws =>
          rw [hrec] at he
          cases he

/-- C4: `decode_from_morse` with default separators fails exactly when
some chunk of the word-separator split has, after trimming and splitting
on the letter separator, a non-empty token outside the reverse table; the
error value is such a token; and `decode(".-.-.-.-")` fails with that
very token. -/
theorem C4_decode_unsupported_error {morse : List Char} :
    ((∃ e, decode_from_morse morse
        DEFAULT_LETTER_SEPARATOR DEFAULT_WORD_SEPARATOR = .error e) ↔
      ∃ ch ∈ splitOnList DEFAULT_WORD_SEPARATOR morse,
        ∃ tok ∈ splitOnList DEFAULT_LETTER_SEPARATOR (strip ch),
          tok ≠ [] ∧ REVERSE_MORSE_CODE_TABLE.lookup tok = none) ∧
    (∀ e, decode_from_morse morse
        DEFAULT_LETTER_SEPARATOR DEFAULT_WORD_SEPARATOR = .error e →
      e ≠ [] ∧ REVERSE_MORSE_CODE_TABLE.lookup e = none ∧
        ∃ ch ∈ splitOnList DEFAULT_WORD_SEPARATOR morse,
          e ∈ splitOnList DEFAULT_LETTER_SEPARATOR (strip ch)) ∧
    decode_from_morse ['.', '-', '.', '-', '.', '-', '.', '-']
        DEFAULT_LETTER_SEPARATOR DEFAULT_WORD_SEPARATOR =
      .error ['.', '-', '.', '-', '.', '-', '.', '-'] := by
  have hbridge : ∀ ch : List Char,
      (∃ tok ∈ (splitOnList DEFAULT_LETTER_SEPARATOR (strip ch)).filter
        (fun t => !t.isEmpty), REVERSE_MORSE_CODE_TABLE.lookup tok = none) ↔
      (∃ tok ∈ splitOnList DEFAULT_LETTER_SEPARATOR (strip ch),
        tok ≠ [] ∧ REVERSE_MORSE_CODE_TABLE.lookup tok = none) := by
    intro ch
    constructor
    · rintro ⟨tok, htok, hnone⟩
      obtain ⟨hmem, hpe⟩ := List.mem_filter.mp htok
      refine ⟨tok, hmem, ?_, hnone⟩
      intro hnil
      rw [hnil] at hpe
      cases hpe
    · rintro ⟨tok, htok, hne, hnone⟩
      refine ⟨tok, List.mem_filter.mpr ⟨htok, ?_⟩, hnone⟩
      cases tok with
      | nil => exact absurd rfl hne
      | cons a t => rfl
  refine ⟨?_, ?_, by rfl⟩
  · rw [decode_from_morse]
    by_cases hs : strip morse = []
    · rw [if_pos hs]
      constructor
      · rintro ⟨e, he⟩
        cases he
      · rintro ⟨ch, hch, tok, htok, hne, _⟩
        have hchw : ∀ c ∈ ch, pyIsSpace c = true := by
          intro c hc
          exact strip_eq_nil_iff.mp hs c (mem_of_mem_splitOnList hch hc)
        have hstr : strip ch = [] := strip_eq_nil_iff.mpr hchw
        rw [hstr] at htok
        rw [splitOnList_nil] at htok
        simp only [List.mem_singleton] at htok
        exact (hne htok).elim
    · rw [if_neg hs]
      constructor
      · rintro ⟨e, he⟩
        cases hdw : decode_words DEFAULT_LETTER_SEPARATOR
            (splitOnList DEFAULT_WORD_SEPARATOR morse) with
        | ok ws => rw [hdw] at he; cases he
        | error e' =>
          obtain ⟨ch, hch, htoks⟩ := decode_words_error_iff.mp ⟨e', hdw⟩
          exact ⟨ch, hch, (hbridge ch).mp htoks⟩
      · rintro ⟨ch, hch, htoks⟩
        obtain ⟨e, he⟩ := decode_words_error_iff.mpr
          ⟨ch, hch, (hbridge ch).mpr htoks⟩
        rw [he]
        exact ⟨e, rfl⟩
  · intro e he
    rw [decode_from_morse] at he
    by_cases hs : strip morse = []
    · rw [if_pos hs] at he
      cases he
    · rw [if_neg hs] at he
      cases hdw : decode_words DEFAULT_LETTER_SEPARATOR
          (splitOnList DEFAULT_WORD_SEPARATOR morse) with
      | ok ws => rw [hdw] at he; cases he
      | error e' =>
        rw [hdw] at he
        simp only [Except.map] at he
        cases he
        exact decode_words_error_val hdw

/-- C4 (witness): the characterisation applied at ".-.-.-.-". -/
theorem C4_decode_unsupported_error_witness :
    (∃ ch ∈ splitOnList DEFAULT_WORD_SEPARATOR
        ['.', '-', '.', '-', '.', '-', '.', '-'],
      ∃ tok ∈ splitOnList DEFAULT_LETTER_SEPARATOR (strip ch),
        tok ≠ [] ∧ REVERSE_MORSE_CODE_TABLE.lookup tok = none) ∧
    (∃ e, decode_from_morse ['.', '-', '.', '-', '.', '-', '.', '-']
      DEFAULT_LETTER_SEPARATOR DEFAULT_WORD_SEPARATOR = .error e) ∧
    (['.', '-', '.', '-', '.', '-', '.', '-'] : List Char) ≠ [] ∧
    REVERSE_MORSE_CODE_TABLE.lookup ['.', '-', '.', '-', '.', '-', '.', '-'] = none ∧
    (∃ ch ∈ splitOnList DEFAULT_WORD_SEPARATOR
        ['.', '-', '.', '-', '.', '-', '.', '-'],
      ['.', '-', '.', '-', '.', '-', '.', '-'] ∈
        splitOnList DEFAULT_LETTER_SEPARATOR (strip ch)) :=
  ⟨by decide,
    (@C4_decode_unsupported_error ['.', '-', '.', '-', '.', '-', '.', '-']).1.mpr
      (by decide),
    (@C4_decode_unsupported_error ['.', '-', '.', '-', '.', '-', '.', '-']).2.1
      ['.', '-', '.', '-', '.', '-', '.', '-'] (by rfl)⟩

end Morse
